import Mathlib

/-!
Verification of the gradient-accumulation rewriter of
`alpa/shard_parallel/shard_callable.py`.

The data model (variables, literals, equations, jaxprs) is a shallow
embedding of the jax core structures used by the source file.  Variables
are identity tokens (a numeric id) carrying an abstract value descriptor
(`Aval`).  The jax `gensym` name supply is modelled by an explicit natural
counter threaded through the rewriter; the counter is seeded past every
variable id occurring in the input program, mirroring
`gensym([raw_jaxpr.jaxpr])`.
-/

namespace Alpa

/-- Abstract value descriptor of a variable: element type plus shape
(`ShapedArray` in jax). -/
structure Aval where
  dtype : Nat
  shape : List Nat
  deriving DecidableEq, Inhabited

/-- A program variable: an opaque identity token (`id`) plus its
descriptor.  Two variables are distinct identities iff their ids differ. -/
structure Var where
  id : Nat
  aval : Aval
  deriving DecidableEq, Inhabited

/-- A literal constant embedded in an equation input (`jax.core.Literal`). -/
structure Lit where
  val : Int
  aval : Aval
  deriving DecidableEq, Inhabited

/-- An equation input: either a variable or a literal. -/
inductive Atom where
  | var (v : Var)
  | lit (l : Lit)
  deriving DecidableEq, Inhabited

def Atom.aval : Atom → Aval
  | Atom.var v => v.aval
  | Atom.lit l => l.aval

/-- Primitive tags.  The source compares primitives by identity
(`eqn.primitive is pipeline_p`); `add_p` and `div_p` come from `jax.lax`,
`pipeline_p` from `alpa.pipeline_parallel.primitive_def`.  All other
primitives are opaque to the rewriter. -/
inductive Primitive where
  | pipeline_p
  | add_p
  | div_p
  | other (tag : Nat)
  deriving DecidableEq, Inhabited

/-- The named parameters carried by an equation.  The rewriter only ever
reads or writes `mark_type` and `name`. -/
structure Params where
  mark_type : Option String
  name : Option String
  deriving DecidableEq, Inhabited

def Params.empty : Params := ⟨none, none⟩

/-- One jaxpr equation (`jax.core.new_jaxpr_eqn`; the source-info slot is
always `None` in the rewriter and is omitted). -/
structure JEqn where
  invars : List Atom
  outvars : List Var
  primitive : Primitive
  params : Params
  deriving DecidableEq, Inhabited

/-- A jaxpr: constvars, invars, outvars and the equation list. -/
structure Jaxpr where
  constvars : List Var
  invars : List Var
  outvars : List Var
  eqns : List JEqn
  deriving DecidableEq, Inhabited

/-- A closed jaxpr: a jaxpr together with its captured constants
(constant values are opaque here). -/
structure ClosedJaxpr where
  jaxpr : Jaxpr
  consts : List Int
  deriving DecidableEq, Inhabited

/-! ### The gensym name supply -/

def atomVars : Atom → List Var
  | Atom.var v => [v]
  | Atom.lit _ => []

def eqnVars (e : JEqn) : List Var :=
  (e.invars.map atomVars).flatten ++ e.outvars

/-- Every variable occurring anywhere in a jaxpr. -/
def jaxprVars (j : Jaxpr) : List Var :=
  j.constvars ++ j.invars ++ j.outvars ++ (j.eqns.map eqnVars).flatten

/-- The first id the fresh-name supply may use: one past every id in the
program, mirroring `gensym([raw_jaxpr.jaxpr])` which produces names after
the maximal count occurring in the given jaxprs. -/
def gensym_seed (j : Jaxpr) : Nat :=
  (jaxprVars j).foldl (fun acc v => max acc (v.id + 1)) 0

/-- One fresh variable with the given descriptor; returns the advanced
counter (`gensym_func(aval)` in the source). -/
def gensym_func (aval : Aval) (c : Nat) : Var × Nat :=
  (⟨c, aval⟩, c + 1)

/-- `[gensym_func(x.aval) for x in xs]` for a list of descriptors,
threading the counter. -/
def clone_avals : List Aval → Nat → List Var × Nat
  | [], c => ([], c)
  | a :: rest, c =>
    let v := gensym_func a c
    let r := clone_avals rest v.2
    (v.1 :: r.1, r.2)

/-- `clone_vars(var_list, gensym_func)`: one fresh variable per input
variable, preserving descriptor and order.  (The Python function is
duck-typed over anything with an `.aval`; atoms go through
`clone_avals` on `Atom.aval` directly.) -/
def clone_vars (var_list : List Var) (c : Nat) : List Var × Nat :=
  clone_avals (var_list.map Var.aval) c

/-! ### `filter_used_vars` -/

/-- `OrderedSet.add`: append the element unless already present. -/
def ordered_set_insert (s : List Var) (v : Var) : List Var :=
  if v ∈ s then s else s ++ [v]

/-- `used_vars.update(x for x in eqn.invars if not isinstance(x, Literal))`. -/
def used_vars_update (s : List Var) (e : JEqn) : List Var :=
  e.invars.foldl
    (fun s a =>
      match a with
      | Atom.var v => ordered_set_insert s v
      | Atom.lit _ => s)
    s

/-- The ordered set of variables used (as non-literal inputs) by `eqns`. -/
def used_vars_of (eqns : List JEqn) : List Var :=
  eqns.foldl used_vars_update []

/-- `filter_used_vars(all_vars, eqns)`: the vars in `all_vars` that are
used by `eqns`, preserving their original order in `all_vars`. -/
def filter_used_vars (all_vars : List Var) (eqns : List JEqn) : List Var :=
  let used_vars := used_vars_of eqns
  all_vars.filter (fun v => decide (v ∈ used_vars))

/-! ### Dictionary primitives (`global_invar_substitute`) -/

/-- Insert a binding; like `d[k] = v`, the most recent binding wins on
lookup (lookups scan from the head). -/
def dict_set (d : List (Var × Var)) (k v : Var) : List (Var × Var) :=
  (k, v) :: d

/-- `d.update(kvs)`: later pairs of `kvs` shadow earlier ones. -/
def dict_update (d : List (Var × Var)) (kvs : List (Var × Var)) :
    List (Var × Var) :=
  kvs.foldl (fun d p => dict_set d p.1 p.2) d

/-- `d[k]` as an option (`k in d` is `(dict_find d k).isSome`). -/
def dict_find (d : List (Var × Var)) (k : Var) : Option Var :=
  (d.find? (fun p => decide (p.1 = k))).map (fun p => p.2)

/-- `d.get(k, k)`. -/
def dict_get_default (d : List (Var × Var)) (k : Var) : Var :=
  (dict_find d k).getD k

/-- `l.index(x)`: position of the first occurrence (the length when the
element is absent, where Python would raise `ValueError`). -/
def list_index (l : List Var) (x : Var) : Nat :=
  l.findIdx (fun y => decide (y = x))

/-- Python `l[:-k]`.  Note `l[:-0] = l[:0] = []`. -/
def py_drop_last (l : List α) (k : Nat) : List α :=
  if k = 0 then [] else l.take (l.length - k)

/-! ### The rewriter -/

/-- Modelled from the spec: the apply-grad region's reserved name suffix,
imported by the source from `alpa.pipeline_parallel.apply_grad` (a module
not under `src/`); the rewriter only uses it as an opaque string. -/
def APPLY_GRAD_MARKER_SUFFIX : String := "apply_grad"

/-- `eqn.primitive is pipeline_p and eqn.params['mark_type'] == 'grad'`. -/
def is_grad_marker (e : JEqn) : Bool :=
  decide (e.primitive = Primitive.pipeline_p) &&
    decide (e.params.mark_type = some "grad")

/-- The scan of lines 349-355: the first gradient separator marker and
its position. -/
def find_grad_marker : List JEqn → Nat → Option (JEqn × Nat)
  | [], _ => none
  | e :: es, pos =>
    if is_grad_marker e then some (e, pos)
    else find_grad_marker es (pos + 1)

/-- Operations strictly before the marker (`eqns[:marker_pos]`). -/
def compute_grad_eqns (raw : ClosedJaxpr) (pos : Nat) : List JEqn :=
  raw.jaxpr.eqns.take pos

/-- Operations strictly after the marker (`eqns[marker_pos + 1:]`). -/
def apply_grad_eqns (raw : ClosedJaxpr) (pos : Nat) : List JEqn :=
  raw.jaxpr.eqns.drop (pos + 1)

/-- `out_grad_vars = marker_eqn.invars`. -/
def out_grad_vars (m : JEqn) : List Atom := m.invars

/-- `num_grads = len(out_grad_vars)`. -/
def num_grads (m : JEqn) : Nat := (out_grad_vars m).length

/-- The counter as seeded from the input program. -/
def seed0 (raw : ClosedJaxpr) : Nat := gensym_seed raw.jaxpr

/-- `old_grad_vars = clone_vars(out_grad_vars, gensym_func)` (with the
counter it returns). -/
def old_grad_clone (raw : ClosedJaxpr) (m : JEqn) : List Var × Nat :=
  clone_avals ((out_grad_vars m).map Atom.aval) (seed0 raw)

def old_grad_vars (raw : ClosedJaxpr) (m : JEqn) : List Var :=
  (old_grad_clone raw m).1

/-- `new_grad_vars = clone_vars(out_grad_vars, gensym_func)`. -/
def new_grad_clone (raw : ClosedJaxpr) (m : JEqn) : List Var × Nat :=
  clone_avals ((out_grad_vars m).map Atom.aval) (old_grad_clone raw m).2

def new_grad_vars (raw : ClosedJaxpr) (m : JEqn) : List Var :=
  (new_grad_clone raw m).1

/-- `filter_used_vars(raw_jaxpr.jaxpr.invars, compute_grad_eqns)`. -/
def acc_used_invars (raw : ClosedJaxpr) (pos : Nat) : List Var :=
  filter_used_vars raw.jaxpr.invars (compute_grad_eqns raw pos)

/-- The accumulate-grad region's `old_invars` (line 371). -/
def acc_old_invars (raw : ClosedJaxpr) (m : JEqn) (pos : Nat) : List Var :=
  acc_used_invars raw pos ++ old_grad_vars raw m

/-- `new_invars = clone_vars(old_invars, gensym_func)` (line 373). -/
def acc_new_clone (raw : ClosedJaxpr) (m : JEqn) (pos : Nat) :
    List Var × Nat :=
  clone_vars (acc_old_invars raw m pos) (new_grad_clone raw m).2

def acc_new_invars (raw : ClosedJaxpr) (m : JEqn) (pos : Nat) : List Var :=
  (acc_new_clone raw m pos).1

/-- The `"start" / "_accumulate_grad"` marker (lines 374-378). -/
def start_acc_eqn (raw : ClosedJaxpr) (m : JEqn) (pos : Nat) : JEqn :=
  ⟨(acc_new_invars raw m pos).map Atom.var, acc_old_invars raw m pos,
    Primitive.pipeline_p, ⟨some "start", some "_accumulate_grad"⟩⟩

/-- `global_invar_substitute.update(zip(old_invars, new_invars))`
(line 379), starting from the empty table. -/
def subst1 (raw : ClosedJaxpr) (m : JEqn) (pos : Nat) : List (Var × Var) :=
  dict_update [] ((acc_old_invars raw m pos).zip (acc_new_invars raw m pos))

/-- The i-th gradient-accumulation add:
`new_grad_vars[i] = old_grad_vars[i] + out_grad_vars[i]` (lines 386-389). -/
def add_eqn (raw : ClosedJaxpr) (m : JEqn) (i : Nat) : JEqn :=
  ⟨[Atom.var ((old_grad_vars raw m).getD i default),
    (out_grad_vars m).getD i default],
    [(new_grad_vars raw m).getD i default], Primitive.add_p, Params.empty⟩

def add_eqns (raw : ClosedJaxpr) (m : JEqn) : List JEqn :=
  (List.range (num_grads m)).map (add_eqn raw m)

/-- `inter_grad_vars = [gensym_func(x.aval) for x in out_grad_vars]`
(line 392). -/
def inter_clone (raw : ClosedJaxpr) (m : JEqn) (pos : Nat) :
    List Var × Nat :=
  clone_avals ((out_grad_vars m).map Atom.aval) (acc_new_clone raw m pos).2

def inter_grad_vars (raw : ClosedJaxpr) (m : JEqn) (pos : Nat) : List Var :=
  (inter_clone raw m pos).1

/-- The `"end" / "_accumulate_grad"` marker (lines 393-397). -/
def end_acc_eqn (raw : ClosedJaxpr) (m : JEqn) (pos : Nat) : JEqn :=
  ⟨(new_grad_vars raw m).map Atom.var, inter_grad_vars raw m pos,
    Primitive.pipeline_p, ⟨some "end", some "_accumulate_grad"⟩⟩

/-- `in_grad_vars = marker_eqn.outvars` (line 400). -/
def in_grad_vars (m : JEqn) : List Var := m.outvars

/-- `filter_used_vars(raw_jaxpr.jaxpr.invars, apply_grad_eqns)`. -/
def apply_used_invars (raw : ClosedJaxpr) (pos : Nat) : List Var :=
  filter_used_vars raw.jaxpr.invars (apply_grad_eqns raw pos)

/-- The apply-grad region's `old_invars` (line 401). -/
def apply_old_invars (raw : ClosedJaxpr) (m : JEqn) (pos : Nat) : List Var :=
  apply_used_invars raw pos ++ in_grad_vars m

/-- The loop state of lines 403-413: the `new_invars` accumulated so far,
the substitution table, the gensym counter, and (bookkeeping only) the
variables freshly minted by this loop. -/
structure ApplyWrapState where
  new_invars : List Var
  subst : List (Var × Var)
  counter : Nat
  minted : List Var
  deriving DecidableEq, Inhabited

/-- One iteration of the loop of lines 404-413. -/
def apply_wrap_step (global_invars : List Var) (in_grad_l inter_grad_l : List Var)
    (st : ApplyWrapState) (var : Var) : ApplyWrapState :=
  if var ∈ global_invars then
    match dict_find st.subst var with
    | some nv => ⟨st.new_invars ++ [nv], st.subst, st.counter, st.minted⟩
    | none =>
      let r := gensym_func var.aval st.counter
      ⟨st.new_invars ++ [r.1], dict_set st.subst var r.1, r.2,
        st.minted ++ [r.1]⟩
  else
    ⟨st.new_invars ++ [inter_grad_l.getD (list_index in_grad_l var) default],
      st.subst, st.counter, st.minted⟩

/-- The loop of lines 403-413, run over the apply-grad `old_invars`. -/
def apply_wrap (raw : ClosedJaxpr) (m : JEqn) (pos : Nat) : ApplyWrapState :=
  (apply_old_invars raw m pos).foldl
    (apply_wrap_step raw.jaxpr.invars (in_grad_vars m)
      (inter_grad_vars raw m pos))
    ⟨[], subst1 raw m pos, (inter_clone raw m pos).2, []⟩

def apply_new_invars (raw : ClosedJaxpr) (m : JEqn) (pos : Nat) : List Var :=
  (apply_wrap raw m pos).new_invars

/-- The final substitution table. -/
def subst2 (raw : ClosedJaxpr) (m : JEqn) (pos : Nat) : List (Var × Var) :=
  (apply_wrap raw m pos).subst

/-- The `"start"` marker of the apply-grad region (lines 415-419). -/
def start_apply_eqn (raw : ClosedJaxpr) (m : JEqn) (pos : Nat) : JEqn :=
  ⟨(apply_new_invars raw m pos).map Atom.var, apply_old_invars raw m pos,
    Primitive.pipeline_p, ⟨some "start", some APPLY_GRAD_MARKER_SUFFIX⟩⟩

/-- The i-th gradient-reduction divide (lines 422-429):
`tmp_var = old_invars[-(i + 1)]; tmp_var = tmp_var / num_micro_batches`,
reusing `tmp_var` as both input and output.  The literal is a scalar of
`tmp_var`'s dtype holding the microbatch count. -/
def div_eqn (l : List Var) (num_micro_batches i : Nat) : JEqn :=
  let tmp_var := l.getD (l.length - (i + 1)) default
  ⟨[Atom.var tmp_var,
    Atom.lit ⟨(num_micro_batches : Int), ⟨tmp_var.aval.dtype, []⟩⟩],
    [tmp_var], Primitive.div_p, Params.empty⟩

def div_eqns (raw : ClosedJaxpr) (m : JEqn) (pos num_micro_batches : Nat) :
    List JEqn :=
  (List.range (num_grads m)).map
    (div_eqn (apply_old_invars raw m pos) num_micro_batches)

/-- `new_outvars = [gensym_func(x.aval) for x in old_outvars]` (line 446). -/
def new_out_clone (raw : ClosedJaxpr) (m : JEqn) (pos : Nat) :
    List Var × Nat :=
  clone_avals (raw.jaxpr.outvars.map Var.aval) (apply_wrap raw m pos).counter

def new_outvars (raw : ClosedJaxpr) (m : JEqn) (pos : Nat) : List Var :=
  (new_out_clone raw m pos).1

/-- The `"end"` marker of the apply-grad region (lines 447-451). -/
def end_apply_eqn (raw : ClosedJaxpr) (m : JEqn) (pos : Nat) : JEqn :=
  ⟨raw.jaxpr.outvars.map Atom.var, new_outvars raw m pos,
    Primitive.pipeline_p, ⟨some "end", some APPLY_GRAD_MARKER_SUFFIX⟩⟩

/-- The combined equation list, in the exact order the source appends:
start marker, compute-grad eqns, accumulation adds, end marker, apply
start marker, gradient-reduction divides, apply-grad eqns, end marker. -/
def combined_eqns (raw : ClosedJaxpr) (m : JEqn) (pos num_micro_batches : Nat) :
    List JEqn :=
  start_acc_eqn raw m pos ::
    (compute_grad_eqns raw pos ++ add_eqns raw m ++
      [end_acc_eqn raw m pos, start_apply_eqn raw m pos] ++
      div_eqns raw m pos num_micro_batches ++ apply_grad_eqns raw pos ++
      [end_apply_eqn raw m pos])

/-- The combined invars (lines 455-457):
`[global_invar_substitute.get(x, x) for x in (invars + old_grad_vars)]`. -/
def combined_invars (raw : ClosedJaxpr) (m : JEqn) (pos : Nat) : List Var :=
  (raw.jaxpr.invars ++ old_grad_vars raw m).map
    (fun x => dict_get_default (subst2 raw m pos) x)

/-- The combined closed jaxpr (lines 454-458). -/
def combined_jaxpr (raw : ClosedJaxpr) (m : JEqn) (pos num_micro_batches : Nat) :
    ClosedJaxpr :=
  ⟨⟨raw.jaxpr.constvars, combined_invars raw m pos, new_outvars raw m pos,
    combined_eqns raw m pos num_micro_batches⟩, raw.consts⟩

/-- Lines 462-465. -/
def accumulate_grad_invar_indices (raw : ClosedJaxpr) (m : JEqn) (pos : Nat) :
    List Nat :=
  (py_drop_last (acc_new_invars raw m pos) (num_grads m)).map
    (list_index (combined_invars raw m pos))

/-- Lines 466-469. -/
def apply_grad_invar_indices (raw : ClosedJaxpr) (m : JEqn) (pos : Nat) :
    List Nat :=
  (py_drop_last (apply_new_invars raw m pos) (num_grads m)).map
    (list_index (combined_invars raw m pos))

/-- `add_gradient_accumulation(raw_jaxpr, num_micro_batches)`.  The failed
assertion of line 356 (no gradient marker found) is `none`. -/
def add_gradient_accumulation (raw : ClosedJaxpr) (num_micro_batches : Nat) :
    Option (ClosedJaxpr × List Nat × List Nat × Nat) :=
  match find_grad_marker raw.jaxpr.eqns 0 with
  | none => none
  | some (m, pos) =>
    some (combined_jaxpr raw m pos num_micro_batches,
      accumulate_grad_invar_indices raw m pos,
      apply_grad_invar_indices raw m pos,
      num_grads m)

/-! ### Concrete example programs -/

namespace Ex

def av0 : Aval := ⟨0, []⟩

def vO : Var := ⟨0, av0⟩
def vP : Var := ⟨1, av0⟩
def vX : Var := ⟨2, av0⟩
def vT : Var := ⟨3, av0⟩
def vG : Var := ⟨4, av0⟩
def vG2 : Var := ⟨5, av0⟩
def vO2 : Var := ⟨6, av0⟩
def vP2 : Var := ⟨7, av0⟩

def eComp1 : JEqn :=
  ⟨[Atom.var vO, Atom.var vP], [vT], Primitive.add_p, Params.empty⟩
def eComp2 : JEqn :=
  ⟨[Atom.var vT, Atom.var vX], [vG], Primitive.add_p, Params.empty⟩
def eMark : JEqn :=
  ⟨[Atom.var vG], [vG2], Primitive.pipeline_p, ⟨some "grad", some "grad"⟩⟩
def eApp1 : JEqn :=
  ⟨[Atom.var vO, Atom.var vG2], [vO2], Primitive.add_p, Params.empty⟩
def eApp2 : JEqn :=
  ⟨[Atom.var vP, Atom.var vG2], [vP2], Primitive.add_p, Params.empty⟩

/-- The concrete scenario of the spec: inputs `(o, p, x)`, one grad marker
taking input `g`, two outputs. -/
def P1 : ClosedJaxpr :=
  ⟨⟨[], [vO, vP, vX], [vO2, vP2], [eComp1, eComp2, eMark, eApp1, eApp2]⟩, []⟩

/-- A program with zero `"grad"`-typed markers. -/
def P0 : ClosedJaxpr :=
  ⟨⟨[], [vO, vP], [vT], [eComp1]⟩, []⟩

/-- An operation using only `vP` as a non-literal input (the other input is
a literal constant). -/
def eUseB : JEqn :=
  ⟨[Atom.var vP, Atom.lit ⟨5, av0⟩], [vT], Primitive.other 3, Params.empty⟩

end Ex

/-! ### Basic lemmas about the name supply -/

theorem clone_avals_length (avs : List Aval) (c : Nat) :
    (clone_avals avs c).1.length = avs.length := by
  induction avs generalizing c with
  | nil => rfl
  | cons a rest ih => simp [clone_avals, gensym_func, ih]

theorem clone_avals_snd (avs : List Aval) (c : Nat) :
    (clone_avals avs c).2 = c + avs.length := by
  induction avs generalizing c with
  | nil => rfl
  | cons a rest ih => simp [clone_avals, gensym_func, ih]; omega

theorem clone_avals_map_aval (avs : List Aval) (c : Nat) :
    (clone_avals avs c).1.map Var.aval = avs := by
  induction avs generalizing c with
  | nil => rfl
  | cons a rest ih => simp [clone_avals, gensym_func, ih]

theorem clone_avals_id_bounds (avs : List Aval) (c : Nat) :
    ∀ v ∈ (clone_avals avs c).1, c ≤ v.id ∧ v.id < c + avs.length := by
  induction avs generalizing c with
  | nil => intro v hv; simp [clone_avals] at hv
  | cons a rest ih =>
    intro v hv
    simp only [clone_avals, gensym_func, List.mem_cons] at hv
    rcases hv with h | h
    · subst h
      exact ⟨Nat.le_refl _, by show c < c + (rest.length + 1); omega⟩
    · have := ih (c + 1) v h
      simp only [List.length_cons]
      omega

theorem clone_avals_getD (avs : List Aval) (c i : Nat) (h : i < avs.length) :
    (clone_avals avs c).1.getD i default = ⟨c + i, avs.getD i default⟩ := by
  induction avs generalizing c i with
  | nil => simp at h
  | cons a rest ih =>
    cases i with
    | zero => simp [clone_avals, gensym_func]
    | succ j =>
      simp only [clone_avals, gensym_func, List.getD_cons_succ]
      rw [ih (c + 1) j (by simpa using h)]
      congr 1
      omega

theorem clone_avals_nodup (avs : List Aval) (c : Nat) :
    (clone_avals avs c).1.Nodup := by
  induction avs generalizing c with
  | nil => simp [clone_avals]
  | cons a rest ih =>
    simp only [clone_avals, gensym_func, List.nodup_cons]
    refine ⟨fun hmem => ?_, ih (c + 1)⟩
    have hb := (clone_avals_id_bounds rest (c + 1) _ hmem).1
    exact absurd hb (Nat.not_succ_le_self c)

theorem le_foldl_max (l : List Var) (a : Nat) :
    a ≤ l.foldl (fun acc v => max acc (v.id + 1)) a := by
  induction l generalizing a with
  | nil => exact Nat.le_refl a
  | cons x xs ih => exact Nat.le_trans (Nat.le_max_left _ _) (ih _)

theorem foldl_max_bound (l : List Var) (a : Nat) :
    ∀ v ∈ l, v.id < l.foldl (fun acc v => max acc (v.id + 1)) a := by
  induction l generalizing a with
  | nil => intro v hv; simp at hv
  | cons x xs ih =>
    intro v hv
    rcases List.mem_cons.mp hv with h | h
    · subst h
      calc v.id < max a (v.id + 1) := by omega
        _ ≤ _ := le_foldl_max xs _
    · exact ih _ v h

/-- Every variable of the input program has an id strictly below the seed
of the fresh-name supply. -/
theorem jaxprVars_id_lt_seed (j : Jaxpr) :
    ∀ v ∈ jaxprVars j, v.id < gensym_seed j :=
  foldl_max_bound (jaxprVars j) 0

theorem invars_subset_jaxprVars (j : Jaxpr) :
    ∀ v ∈ j.invars, v ∈ jaxprVars j := by
  intro v hv
  simp [jaxprVars, List.mem_append]
  tauto

theorem eqn_outvars_subset_jaxprVars (j : Jaxpr) (e : JEqn) (he : e ∈ j.eqns) :
    ∀ v ∈ e.outvars, v ∈ jaxprVars j := by
  intro v hv
  simp only [jaxprVars, List.mem_append, List.mem_flatten, List.mem_map]
  right
  exact ⟨eqnVars e, ⟨e, he, rfl⟩, by simp [eqnVars, List.mem_append]; tauto⟩

theorem eqn_invars_subset_jaxprVars (j : Jaxpr) (e : JEqn) (he : e ∈ j.eqns)
    (v : Var) (hv : Atom.var v ∈ e.invars) : v ∈ jaxprVars j := by
  simp only [jaxprVars, List.mem_append, List.mem_flatten, List.mem_map]
  right
  refine ⟨eqnVars e, ⟨e, he, rfl⟩, ?_⟩
  simp only [eqnVars, List.mem_append, List.mem_flatten, List.mem_map]
  left
  exact ⟨atomVars (Atom.var v), ⟨Atom.var v, hv, rfl⟩, by simp [atomVars]⟩

/-! ### Lemmas about `filter_used_vars` -/

theorem mem_ordered_set_insert (s : List Var) (w v : Var) :
    v ∈ ordered_set_insert s w ↔ v ∈ s ∨ v = w := by
  unfold ordered_set_insert
  split
  · constructor
    · exact fun h => Or.inl h
    · rintro (h | rfl)
      · exact h
      · assumption
  · simp [List.mem_append]

theorem mem_atom_fold (l : List Atom) (s : List Var) (v : Var) :
    v ∈ l.foldl
        (fun s a =>
          match a with
          | Atom.var w => ordered_set_insert s w
          | Atom.lit _ => s) s ↔
      v ∈ s ∨ Atom.var v ∈ l := by
  induction l generalizing s with
  | nil => simp
  | cons a rest ih =>
    cases a with
    | var w =>
      simp only [List.foldl_cons, ih, mem_ordered_set_insert, List.mem_cons]
      constructor
      · rintro ((h | rfl) | h)
        · exact Or.inl h
        · exact Or.inr (Or.inl rfl)
        · exact Or.inr (Or.inr h)
      · rintro (h | (h | h))
        · exact Or.inl (Or.inl h)
        · exact Or.inl (Or.inr (by injection h))
        · exact Or.inr h
    | lit l =>
      simp only [List.foldl_cons, ih, List.mem_cons]
      constructor
      · rintro (h | h)
        · exact Or.inl h
        · exact Or.inr (Or.inr h)
      · rintro (h | (h | h))
        · exact Or.inl h
        · exact absurd h (by simp)
        · exact Or.inr h

theorem mem_used_vars_update (s : List Var) (e : JEqn) (v : Var) :
    v ∈ used_vars_update s e ↔ v ∈ s ∨ Atom.var v ∈ e.invars :=
  mem_atom_fold e.invars s v

theorem mem_used_vars_of (eqns : List JEqn) (v : Var) :
    v ∈ used_vars_of eqns ↔ ∃ e ∈ eqns, Atom.var v ∈ e.invars := by
  suffices h : ∀ (s : List Var),
      v ∈ eqns.foldl used_vars_update s ↔ v ∈ s ∨ ∃ e ∈ eqns, Atom.var v ∈ e.invars by
    simpa using h []
  induction eqns with
  | nil => simp
  | cons e rest ih =>
    intro s
    simp only [List.foldl_cons, ih, mem_used_vars_update, List.mem_cons]
    constructor
    · rintro ((h | h) | ⟨f, hf, hv⟩)
      · exact Or.inl h
      · exact Or.inr ⟨e, Or.inl rfl, h⟩
      · exact Or.inr ⟨f, Or.inr hf, hv⟩
    · rintro (h | ⟨f, (rfl | hf), hv⟩)
      · exact Or.inl (Or.inl h)
      · exact Or.inl (Or.inr hv)
      · exact Or.inr ⟨f, hf, hv⟩

/-- A variable is used by `eqns` iff it appears as a non-literal input of
some equation. -/
def uses (eqns : List JEqn) (v : Var) : Prop :=
  ∃ e ∈ eqns, Atom.var v ∈ e.invars

theorem mem_filter_used_vars (all_vars : List Var) (eqns : List JEqn) (v : Var) :
    v ∈ filter_used_vars all_vars eqns ↔ v ∈ all_vars ∧ uses eqns v := by
  simp [filter_used_vars, List.mem_filter, mem_used_vars_of, uses]

theorem filter_used_vars_sublist (all_vars : List Var) (eqns : List JEqn) :
    (filter_used_vars all_vars eqns).Sublist all_vars :=
  List.filter_sublist all_vars

theorem filter_used_vars_nodup (all_vars : List Var) (eqns : List JEqn)
    (h : all_vars.Nodup) : (filter_used_vars all_vars eqns).Nodup :=
  h.filter _

/-! ### Lemmas about `list_index` and the substitution dictionary -/

theorem list_index_cons (a : Var) (l : List Var) (x : Var) :
    list_index (a :: l) x = if a = x then 0 else list_index l x + 1 := by
  simp only [list_index, List.findIdx_cons]
  by_cases h : a = x <;> simp [h]

theorem list_index_lt_length (l : List Var) (x : Var) (h : x ∈ l) :
    list_index l x < l.length := by
  induction l with
  | nil => simp at h
  | cons a rest ih =>
    rw [list_index_cons]
    by_cases ha : a = x
    · simp [ha]
    · have hx : x ∈ rest := by
        rcases List.mem_cons.mp h with h' | h'
        · exact absurd h'.symm ha
        · exact h'
      simp only [ha, if_false, List.length_cons]
      exact Nat.succ_lt_succ (ih hx)

theorem getD_list_index (l : List Var) (x : Var) (h : x ∈ l) :
    l.getD (list_index l x) default = x := by
  induction l with
  | nil => simp at h
  | cons a rest ih =>
    rw [list_index_cons]
    by_cases ha : a = x
    · simp [ha]
    · have hx : x ∈ rest := by
        rcases List.mem_cons.mp h with h' | h'
        · exact absurd h'.symm ha
        · exact h'
      simp only [ha, if_false, List.getD_cons_succ]
      exact ih hx

theorem getD_mem {α : Type} [Inhabited α] (l : List α) (i : Nat)
    (hi : i < l.length) : l.getD i default ∈ l := by
  rw [List.getD_eq_getElem l default hi]
  exact List.getElem_mem hi

theorem list_index_getD_of_nodup (l : List Var) (hn : l.Nodup) (i : Nat)
    (hi : i < l.length) : list_index l (l.getD i default) = i := by
  induction l generalizing i with
  | nil => simp at hi
  | cons a rest ih =>
    rcases List.nodup_cons.mp hn with ⟨hna, hnr⟩
    cases i with
    | zero => simp [list_index_cons]
    | succ j =>
      have hj : j < rest.length := by simpa using hi
      have hmem : rest.getD j default ∈ rest := getD_mem rest j hj
      have hgd : (a :: rest).getD (j + 1) default = rest.getD j default := rfl
      rw [hgd, list_index_cons]
      have hne : ¬(a = rest.getD j default) := fun h => hna (h ▸ hmem)
      rw [if_neg hne, ih hnr j hj]

theorem dict_update_eq (d : List (Var × Var)) (kvs : List (Var × Var)) :
    dict_update d kvs = kvs.reverse ++ d := by
  induction kvs generalizing d with
  | nil => rfl
  | cons p rest ih =>
    show dict_update (dict_set d p.1 p.2) rest = _
    rw [ih]
    simp [dict_set]

theorem dict_find_append (d₁ d₂ : List (Var × Var)) (k : Var) :
    dict_find (d₁ ++ d₂) k = (dict_find d₁ k).orElse (fun _ => dict_find d₂ k) := by
  simp only [dict_find]
  rw [List.find?_append]
  cases List.find? (fun p => decide (p.1 = k)) d₁ <;> simp [Option.orElse]

theorem dict_find_cons (p : Var × Var) (d : List (Var × Var)) (k : Var) :
    dict_find (p :: d) k = if p.1 = k then some p.2 else dict_find d k := by
  simp only [dict_find]
  by_cases h : p.1 = k
  · rw [List.find?_cons_of_pos _ (by simp [h])]
    simp [h]
  · rw [List.find?_cons_of_neg _ (by simp [h])]
    simp [h]

theorem dict_find_eq_none (d : List (Var × Var)) (k : Var)
    (h : ∀ p ∈ d, p.1 ≠ k) : dict_find d k = none := by
  simp only [dict_find, Option.map_eq_none']
  rw [List.find?_eq_none]
  intro p hp
  simpa using h p hp

theorem dict_find_mem (d : List (Var × Var)) (k v : Var)
    (h : dict_find d k = some v) : (k, v) ∈ d := by
  simp only [dict_find, Option.map_eq_some'] at h
  obtain ⟨p, hp, hv⟩ := h
  have hk := List.find?_some hp
  have hmem := List.mem_of_find?_eq_some hp
  simp at hk
  cases p
  simp_all

/-- Looking up the i-th key of a zip of two equal-length lists with
nodup keys, after reversing (which is how `dict.update(zip(ks, vs))`
lays pairs out), yields the i-th value. -/
theorem dict_find_zip_reverse (ks vs : List Var) (hlen : ks.length = vs.length)
    (hn : ks.Nodup) (i : Nat) (hi : i < ks.length) :
    dict_find ((ks.zip vs).reverse) (ks.getD i default) =
      some (vs.getD i default) := by
  induction ks generalizing vs i with
  | nil => simp at hi
  | cons a rest ih =>
    cases vs with
    | nil => simp at hlen
    | cons b vrest =>
      rcases List.nodup_cons.mp hn with ⟨hna, hnr⟩
      have hlen' : rest.length = vrest.length := by simpa using hlen
      simp only [List.zip_cons_cons, List.reverse_cons]
      rw [dict_find_append]
      cases i with
      | zero =>
        have hnone : dict_find ((rest.zip vrest).reverse) a = none := by
          apply dict_find_eq_none
          intro p hp
          have : p ∈ rest.zip vrest := by simpa using hp
          have hfst : p.1 ∈ rest := (List.of_mem_zip this).1
          intro hk
          exact hna (hk ▸ hfst)
        simp [hnone, dict_find_cons]
      | succ j =>
        have hj : j < rest.length := by simpa using hi
        simp only [List.getD_cons_succ]
        rw [ih vrest hlen' hnr j hj]
        rfl

/-- Two keys bound to the same value coincide when the table's values are
nodup. -/
theorem dict_find_inj (d : List (Var × Var)) (hv : (d.map Prod.snd).Nodup)
    (k₁ k₂ v : Var) (h₁ : dict_find d k₁ = some v) (h₂ : dict_find d k₂ = some v) :
    k₁ = k₂ := by
  have m₁ := dict_find_mem d k₁ v h₁
  have m₂ := dict_find_mem d k₂ v h₂
  have h2 := List.inj_on_of_nodup_map hv m₁ m₂ rfl
  exact congrArg Prod.fst h2

theorem getD_append_left {α : Type} [Inhabited α] (l₁ l₂ : List α) (i : Nat)
    (hi : i < l₁.length) : (l₁ ++ l₂).getD i default = l₁.getD i default := by
  rw [List.getD_eq_getElem _ default (by simp; omega),
    List.getD_eq_getElem _ default hi]
  exact List.getElem_append_left hi

theorem py_drop_last_zero (l : List α) : py_drop_last l 0 = [] := rfl

theorem py_drop_last_of_pos (l : List α) (k : Nat) (hk : k ≠ 0) :
    py_drop_last l k = l.take (l.length - k) := by
  simp [py_drop_last, hk]

/-! ### Lemmas about the marker scan -/

theorem find_grad_marker_none (l : List JEqn) (base : Nat)
    (h : l.countP is_grad_marker = 0) : find_grad_marker l base = none := by
  induction l generalizing base with
  | nil => rfl
  | cons e es ih =>
    rw [List.countP_cons] at h
    have he : is_grad_marker e = false := by
      by_cases hb : is_grad_marker e
      · simp [hb] at h
      · simpa using hb
    simp only [find_grad_marker, he, Bool.false_eq_true, if_false]
    exact ih _ (by omega)

theorem countP_pos_of_mem {l : List JEqn} {e : JEqn} (he : e ∈ l)
    (hm : is_grad_marker e = true) : 0 < l.countP is_grad_marker := by
  rw [List.countP_pos_iff]
  exact ⟨e, he, hm⟩

/-- When the program has exactly one grad marker and it sits at
position `pos`, the scan finds that marker at that position. -/
theorem find_grad_marker_unique (l : List JEqn) (base pos : Nat)
    (hp : pos < l.length) (hm : is_grad_marker (l.getD pos default) = true)
    (hc : l.countP is_grad_marker = 1) :
    find_grad_marker l base = some (l.getD pos default, base + pos) := by
  induction l generalizing base pos with
  | nil => simp at hp
  | cons e es ih =>
    rw [List.countP_cons] at hc
    by_cases hge : is_grad_marker e
    · have hzero : es.countP is_grad_marker = 0 := by
        rw [if_pos hge] at hc; omega
      cases pos with
      | zero =>
        simp only [find_grad_marker, hge, if_true]
        rfl
      | succ j =>
        exfalso
        have hj : j < es.length := by simpa using hp
        have hmem : es.getD j default ∈ es := getD_mem es j hj
        have hgd : (e :: es).getD (j + 1) default = es.getD j default := rfl
        rw [hgd] at hm
        have := countP_pos_of_mem hmem hm
        omega
    · have he : is_grad_marker e = false := by simpa using hge
      have hc' : es.countP is_grad_marker = 1 := by simp [he] at hc; omega
      cases pos with
      | zero =>
        exfalso
        have hgd : (e :: es).getD 0 default = e := rfl
        rw [hgd] at hm
        exact hge hm
      | succ j =>
        have hj : j < es.length := by simpa using hp
        have hgd : (e :: es).getD (j + 1) default = es.getD j default := rfl
        simp only [find_grad_marker, he, Bool.false_eq_true, if_false, hgd]
        have harith : base + 1 + j = base + (j + 1) := by omega
        rw [ih (base + 1) j hj (by rw [← hgd]; exact hm) hc', harith]

theorem find_grad_marker_mem (l : List JEqn) (base : Nat) (m : JEqn) (pos : Nat)
    (h : find_grad_marker l base = some (m, pos)) :
    m ∈ l ∧ is_grad_marker m = true := by
  induction l generalizing base with
  | nil => simp [find_grad_marker] at h
  | cons e es ih =>
    by_cases hge : is_grad_marker e
    · simp only [find_grad_marker, hge, if_true, Option.some_inj] at h
      obtain ⟨rfl, -⟩ := Prod.mk.injEq .. ▸ h
      exact ⟨List.mem_cons_self e es, hge⟩
    · have he : is_grad_marker e = false := by simpa using hge
      simp only [find_grad_marker, he, Bool.false_eq_true, if_false] at h
      obtain ⟨hmem, hgm⟩ := ih (base + 1) h
      exact ⟨List.mem_cons_of_mem e hmem, hgm⟩

/-! ### Claim theorems: error handling and the utility layer -/

/-- C5: a program with zero `"grad"`-typed boundary markers makes
`add_gradient_accumulation` fail its precondition (`none`, modelling the
failed assertion of line 356): no partial result is produced, and — the
rewriter being a pure function of its input — the input program is left
unchanged. -/
theorem no_grad_marker_fails (raw : ClosedJaxpr) (num_micro_batches : Nat)
    (h : raw.jaxpr.eqns.countP is_grad_marker = 0) :
    add_gradient_accumulation raw num_micro_batches = none := by
  unfold add_gradient_accumulation
  rw [find_grad_marker_none _ _ h]

theorem no_grad_marker_fails_witness :
    Ex.P0.jaxpr.eqns.countP is_grad_marker = 0 ∧
      add_gradient_accumulation Ex.P0 4 = none :=
  ⟨by decide, no_grad_marker_fails Ex.P0 4 (by decide)⟩

/-- C1: for a program with exactly one `"grad"`-typed boundary marker,
sitting at position `pos`, the rewriter succeeds and its combined
operation list is exactly: the accumulate-grad start marker, all
operations strictly before `pos`, the accumulation adds, the
accumulate-grad end marker, the apply-grad start marker, the reduction
divides, all operations strictly after `pos`, and the apply-grad end
marker.  Hence every pre-marker operation sits between the accumulate
region's start and end markers, every post-marker operation sits between
the apply region's markers, and each original operation occurs in the
combined list exactly where the shape equation puts it — none dropped,
none duplicated. -/
theorem one_marker_region_placement (raw : ClosedJaxpr)
    (num_micro_batches pos : Nat) (hp : pos < raw.jaxpr.eqns.length)
    (hm : is_grad_marker (raw.jaxpr.eqns.getD pos default) = true)
    (hc : raw.jaxpr.eqns.countP is_grad_marker = 1) :
    ∃ m, m = raw.jaxpr.eqns.getD pos default ∧
      add_gradient_accumulation raw num_micro_batches =
        some (combined_jaxpr raw m pos num_micro_batches,
          accumulate_grad_invar_indices raw m pos,
          apply_grad_invar_indices raw m pos, num_grads m) ∧
      (combined_jaxpr raw m pos num_micro_batches).jaxpr.eqns =
        start_acc_eqn raw m pos ::
          (raw.jaxpr.eqns.take pos ++ add_eqns raw m ++
            [end_acc_eqn raw m pos, start_apply_eqn raw m pos] ++
            div_eqns raw m pos num_micro_batches ++
            raw.jaxpr.eqns.drop (pos + 1) ++ [end_apply_eqn raw m pos]) ∧
      (start_acc_eqn raw m pos).primitive = Primitive.pipeline_p ∧
      (start_acc_eqn raw m pos).params =
        ⟨some "start", some "_accumulate_grad"⟩ ∧
      (end_acc_eqn raw m pos).params = ⟨some "end", some "_accumulate_grad"⟩ ∧
      (start_apply_eqn raw m pos).params =
        ⟨some "start", some APPLY_GRAD_MARKER_SUFFIX⟩ ∧
      (end_apply_eqn raw m pos).params =
        ⟨some "end", some APPLY_GRAD_MARKER_SUFFIX⟩ ∧
      (∀ e ∈ add_eqns raw m, e.primitive = Primitive.add_p) ∧
      (∀ e ∈ div_eqns raw m pos num_micro_batches,
        e.primitive = Primitive.div_p) := by
  refine ⟨raw.jaxpr.eqns.getD pos default, rfl, ?_, rfl, rfl, rfl, rfl, rfl,
    rfl, ?_, ?_⟩
  · have hfind := find_grad_marker_unique raw.jaxpr.eqns 0 pos hp hm hc
    rw [Nat.zero_add] at hfind
    unfold add_gradient_accumulation
    rw [hfind]
  · intro e he
    obtain ⟨i, _, rfl⟩ := List.mem_map.mp he
    rfl
  · intro e he
    obtain ⟨i, _, rfl⟩ := List.mem_map.mp he
    rfl

theorem one_marker_region_placement_witness :
    2 < Ex.P1.jaxpr.eqns.length ∧
      is_grad_marker (Ex.P1.jaxpr.eqns.getD 2 default) = true ∧
      Ex.P1.jaxpr.eqns.countP is_grad_marker = 1 ∧
      add_gradient_accumulation Ex.P1 4 =
        some (combined_jaxpr Ex.P1 Ex.eMark 2 4,
          accumulate_grad_invar_indices Ex.P1 Ex.eMark 2,
          apply_grad_invar_indices Ex.P1 Ex.eMark 2, num_grads Ex.eMark) := by
  refine ⟨by decide, by decide, by decide, ?_⟩
  obtain ⟨m, hmeq, hsome, -⟩ :=
    one_marker_region_placement Ex.P1 4 2 (by decide) (by decide) (by decide)
  subst hmeq
  exact hsome

/-- C8: `filter_used_vars` returns the subsequence of its candidates (in
their original relative order, without introducing duplicates) consisting
of exactly the variables occurring as a non-literal input of at least one
operation; literal inputs never count. -/
theorem filter_used_vars_spec (candidates : List Var) (operations : List JEqn) :
    (filter_used_vars candidates operations).Sublist candidates ∧
      (∀ v, v ∈ filter_used_vars candidates operations ↔
        v ∈ candidates ∧ ∃ e ∈ operations, Atom.var v ∈ e.invars) ∧
      (candidates.Nodup → (filter_used_vars candidates operations).Nodup) :=
  ⟨filter_used_vars_sublist candidates operations,
    fun v => mem_filter_used_vars candidates operations v,
    filter_used_vars_nodup candidates operations⟩

theorem filter_used_vars_spec_witness :
    [Ex.vO, Ex.vP, Ex.vX].Nodup ∧
      (filter_used_vars [Ex.vO, Ex.vP, Ex.vX] [Ex.eUseB]).Nodup ∧
      filter_used_vars [Ex.vO, Ex.vP, Ex.vX] [Ex.eUseB] = [Ex.vP] ∧
      Ex.vO ∉ filter_used_vars [Ex.vO, Ex.vP, Ex.vX] [Ex.eUseB] :=
  ⟨by decide,
    (filter_used_vars_spec [Ex.vO, Ex.vP, Ex.vX] [Ex.eUseB]).2.2 (by decide),
    by decide, by decide⟩

/-! ### The apply-grad renaming loop: step characterization and fold
invariants -/

theorem apply_wrap_step_global_found (gi igl itl : List Var)
    (st : ApplyWrapState) (v nv : Var) (hv : v ∈ gi)
    (hfd : dict_find st.subst v = some nv) :
    apply_wrap_step gi igl itl st v =
      ⟨st.new_invars ++ [nv], st.subst, st.counter, st.minted⟩ := by
  unfold apply_wrap_step
  rw [if_pos hv, hfd]

theorem apply_wrap_step_global_new (gi igl itl : List Var)
    (st : ApplyWrapState) (v : Var) (hv : v ∈ gi)
    (hfd : dict_find st.subst v = none) :
    apply_wrap_step gi igl itl st v =
      ⟨st.new_invars ++ [⟨st.counter, v.aval⟩],
        dict_set st.subst v ⟨st.counter, v.aval⟩, st.counter + 1,
        st.minted ++ [⟨st.counter, v.aval⟩]⟩ := by
  unfold apply_wrap_step
  rw [if_pos hv, hfd]
  rfl

theorem apply_wrap_step_nonglobal (gi igl itl : List Var)
    (st : ApplyWrapState) (v : Var) (hv : v ∉ gi) :
    apply_wrap_step gi igl itl st v =
      ⟨st.new_invars ++ [itl.getD (list_index igl v) default], st.subst,
        st.counter, st.minted⟩ := by
  unfold apply_wrap_step
  rw [if_neg hv]

theorem apply_wrap_counter_mono (gi igl itl : List Var) (l : List Var)
    (st : ApplyWrapState) :
    st.counter ≤ (l.foldl (apply_wrap_step gi igl itl) st).counter := by
  induction l generalizing st with
  | nil => exact Nat.le_refl _
  | cons v rest ih =>
    rw [List.foldl_cons]
    refine Nat.le_trans ?_ (ih (apply_wrap_step gi igl itl st v))
    by_cases hv : v ∈ gi
    · cases hfd : dict_find st.subst v with
      | some nv => rw [apply_wrap_step_global_found gi igl itl st v nv hv hfd]
      | none =>
        rw [apply_wrap_step_global_new gi igl itl st v hv hfd]
        exact Nat.le_succ _
    · rw [apply_wrap_step_nonglobal gi igl itl st v hv]

theorem apply_wrap_find_preserved (gi igl itl : List Var) (l : List Var)
    (st : ApplyWrapState) (k w : Var) (h : dict_find st.subst k = some w) :
    dict_find (l.foldl (apply_wrap_step gi igl itl) st).subst k = some w := by
  induction l generalizing st with
  | nil => exact h
  | cons v rest ih =>
    rw [List.foldl_cons]
    by_cases hv : v ∈ gi
    · cases hfd : dict_find st.subst v with
      | some nv =>
        rw [apply_wrap_step_global_found gi igl itl st v nv hv hfd]
        exact ih _ h
      | none =>
        rw [apply_wrap_step_global_new gi igl itl st v hv hfd]
        apply ih
        show dict_find (dict_set st.subst v ⟨st.counter, v.aval⟩) k = some w
        have hkv : k ≠ v := by
          intro hk
          rw [hk] at h
          rw [h] at hfd
          exact Option.noConfusion hfd
        have hne : ¬(v = k) := fun hh => hkv hh.symm
        rw [dict_set, dict_find_cons, if_neg hne]
        exact h
    · rw [apply_wrap_step_nonglobal gi igl itl st v hv]
      exact ih _ h

theorem apply_wrap_subst_mem (gi igl itl : List Var) (l : List Var)
    (st : ApplyWrapState) :
    ∀ p ∈ (l.foldl (apply_wrap_step gi igl itl) st).subst,
      p ∈ st.subst ∨
        (p.1 ∈ l ∧ p.1 ∈ gi ∧ st.counter ≤ p.2.id ∧
          p.2.id < (l.foldl (apply_wrap_step gi igl itl) st).counter) := by
  induction l generalizing st with
  | nil => intro p hp; exact Or.inl hp
  | cons v rest ih =>
    intro p hp
    rw [List.foldl_cons] at hp ⊢
    by_cases hv : v ∈ gi
    · cases hfd : dict_find st.subst v with
      | some nv =>
        rw [apply_wrap_step_global_found gi igl itl st v nv hv hfd] at hp ⊢
        rcases ih _ p hp with h | ⟨h1, h2, h3, h4⟩
        · exact Or.inl h
        · exact Or.inr ⟨List.mem_cons_of_mem v h1, h2, h3, h4⟩
      | none =>
        rw [apply_wrap_step_global_new gi igl itl st v hv hfd] at hp ⊢
        rcases ih _ p hp with h | ⟨h1, h2, h3, h4⟩
        · rcases List.mem_cons.mp h with h' | h'
          · subst h'
            refine Or.inr ⟨List.mem_cons_self v rest, hv, Nat.le_refl _, ?_⟩
            have := apply_wrap_counter_mono gi igl itl rest
              ⟨st.new_invars ++ [⟨st.counter, v.aval⟩],
                dict_set st.subst v ⟨st.counter, v.aval⟩, st.counter + 1,
                st.minted ++ [⟨st.counter, v.aval⟩]⟩
            exact Nat.lt_of_lt_of_le (Nat.lt_succ_self _) this
          · exact Or.inl h'
        · exact Or.inr ⟨List.mem_cons_of_mem v h1, h2, Nat.le_of_succ_le h3, h4⟩
    · rw [apply_wrap_step_nonglobal gi igl itl st v hv] at hp ⊢
      rcases ih _ p hp with h | ⟨h1, h2, h3, h4⟩
      · exact Or.inl h
      · exact Or.inr ⟨List.mem_cons_of_mem v h1, h2, h3, h4⟩

/-- Processing a list of global input variables appends, for each one, its
entry in the *final* substitution table. -/
theorem apply_wrap_global_stage (gi igl itl : List Var) (l : List Var)
    (st : ApplyWrapState) (hl : ∀ v ∈ l, v ∈ gi) :
    (l.foldl (apply_wrap_step gi igl itl) st).new_invars =
      st.new_invars ++
        l.map (fun v =>
          dict_get_default (l.foldl (apply_wrap_step gi igl itl) st).subst v) := by
  induction l generalizing st with
  | nil => simp
  | cons v rest ih =>
    have hv : v ∈ gi := hl v (List.mem_cons_self v rest)
    have hrest : ∀ u ∈ rest, u ∈ gi := fun u hu => hl u (List.mem_cons_of_mem v hu)
    rw [List.foldl_cons]
    cases hfd : dict_find st.subst v with
    | some nv =>
      rw [apply_wrap_step_global_found gi igl itl st v nv hv hfd]
      rw [ih _ hrest]
      have hfd' : dict_find
          (rest.foldl (apply_wrap_step gi igl itl)
            ⟨st.new_invars ++ [nv], st.subst, st.counter, st.minted⟩).subst v =
          some nv :=
        apply_wrap_find_preserved gi igl itl rest _ v nv hfd
      have hget : dict_get_default
          (rest.foldl (apply_wrap_step gi igl itl)
            ⟨st.new_invars ++ [nv], st.subst, st.counter, st.minted⟩).subst v = nv := by
        rw [dict_get_default, hfd']
        rfl
      rw [List.map_cons]
      simp [hget]
    | none =>
      rw [apply_wrap_step_global_new gi igl itl st v hv hfd]
      rw [ih _ hrest]
      have hfd0 : dict_find (dict_set st.subst v ⟨st.counter, v.aval⟩) v =
          some ⟨st.counter, v.aval⟩ := by
        rw [dict_set, dict_find_cons, if_pos rfl]
      have hfd' : dict_find
          (rest.foldl (apply_wrap_step gi igl itl)
            ⟨st.new_invars ++ [⟨st.counter, v.aval⟩],
              dict_set st.subst v ⟨st.counter, v.aval⟩, st.counter + 1,
              st.minted ++ [⟨st.counter, v.aval⟩]⟩).subst v =
          some ⟨st.counter, v.aval⟩ :=
        apply_wrap_find_preserved gi igl itl rest _ v _ hfd0
      have hget : dict_get_default
          (rest.foldl (apply_wrap_step gi igl itl)
            ⟨st.new_invars ++ [⟨st.counter, v.aval⟩],
              dict_set st.subst v ⟨st.counter, v.aval⟩, st.counter + 1,
              st.minted ++ [⟨st.counter, v.aval⟩]⟩).subst v =
          (⟨st.counter, v.aval⟩ : Var) := by
        rw [dict_get_default, hfd']
        rfl
      rw [List.map_cons]
      simp [hget]

/-- Processing a list of non-global variables (the `in_grad_vars` tail)
appends the matching `inter_grad_vars` slots and leaves the table, the
counter and the minted list untouched. -/
theorem apply_wrap_nonglobal_stage (gi igl itl : List Var) (l : List Var)
    (st : ApplyWrapState) (hl : ∀ v ∈ l, v ∉ gi) :
    l.foldl (apply_wrap_step gi igl itl) st =
      ⟨st.new_invars ++ l.map (fun v => itl.getD (list_index igl v) default),
        st.subst, st.counter, st.minted⟩ := by
  induction l generalizing st with
  | nil => simp
  | cons v rest ih =>
    have hv : v ∉ gi := hl v (List.mem_cons_self v rest)
    have hrest : ∀ u ∈ rest, u ∉ gi := fun u hu => hl u (List.mem_cons_of_mem v hu)
    rw [List.foldl_cons, apply_wrap_step_nonglobal gi igl itl st v hv, ih _ hrest]
    simp

theorem apply_wrap_minted_bounds (gi igl itl : List Var) (l : List Var)
    (st : ApplyWrapState) :
    ∀ v ∈ (l.foldl (apply_wrap_step gi igl itl) st).minted,
      v ∈ st.minted ∨
        (st.counter ≤ v.id ∧
          v.id < (l.foldl (apply_wrap_step gi igl itl) st).counter) := by
  induction l generalizing st with
  | nil => intro v hv; exact Or.inl hv
  | cons v rest ih =>
    intro w hw
    rw [List.foldl_cons] at hw ⊢
    by_cases hv : v ∈ gi
    · cases hfd : dict_find st.subst v with
      | some nv =>
        rw [apply_wrap_step_global_found gi igl itl st v nv hv hfd] at hw ⊢
        exact ih _ w hw
      | none =>
        rw [apply_wrap_step_global_new gi igl itl st v hv hfd] at hw ⊢
        rcases ih _ w hw with h | ⟨h1, h2⟩
        · rcases List.mem_append.mp h with h' | h'
          · exact Or.inl h'
          · rcases List.mem_singleton.mp h' with rfl
            refine Or.inr ⟨Nat.le_refl _, ?_⟩
            have := apply_wrap_counter_mono gi igl itl rest
              ⟨st.new_invars ++ [⟨st.counter, v.aval⟩],
                dict_set st.subst v ⟨st.counter, v.aval⟩, st.counter + 1,
                st.minted ++ [⟨st.counter, v.aval⟩]⟩
            exact Nat.lt_of_lt_of_le (Nat.lt_succ_self _) this
        · exact Or.inr ⟨Nat.le_of_succ_le h1, h2⟩
    · rw [apply_wrap_step_nonglobal gi igl itl st v hv] at hw ⊢
      exact ih _ w hw

theorem apply_wrap_minted_nodup (gi igl itl : List Var) (l : List Var)
    (st : ApplyWrapState) (hn : st.minted.Nodup)
    (hb : ∀ v ∈ st.minted, v.id < st.counter) :
    (l.foldl (apply_wrap_step gi igl itl) st).minted.Nodup ∧
      ∀ v ∈ (l.foldl (apply_wrap_step gi igl itl) st).minted,
        v.id < (l.foldl (apply_wrap_step gi igl itl) st).counter := by
  induction l generalizing st with
  | nil => exact ⟨hn, hb⟩
  | cons v rest ih =>
    rw [List.foldl_cons]
    by_cases hv : v ∈ gi
    · cases hfd : dict_find st.subst v with
      | some nv =>
        rw [apply_wrap_step_global_found gi igl itl st v nv hv hfd]
        exact ih _ hn hb
      | none =>
        rw [apply_wrap_step_global_new gi igl itl st v hv hfd]
        apply ih
        · rw [List.nodup_append]
          refine ⟨hn, List.nodup_singleton _, ?_⟩
          intro w hw hw'
          rcases List.mem_singleton.mp hw' with rfl
          exact absurd (hb _ hw) (Nat.lt_irrefl _)
        · intro w hw
          rcases List.mem_append.mp hw with h' | h'
          · exact Nat.lt_succ_of_lt (hb _ h')
          · rcases List.mem_singleton.mp h' with rfl
            exact Nat.lt_succ_self _
    · rw [apply_wrap_step_nonglobal gi igl itl st v hv]
      exact ih _ hn hb

theorem apply_wrap_subst_values (gi igl itl : List Var) (l : List Var)
    (st : ApplyWrapState) (lo : Nat)
    (hn : (st.subst.map Prod.snd).Nodup)
    (hb : ∀ p ∈ st.subst, lo ≤ p.2.id ∧ p.2.id < st.counter)
    (hlo : lo ≤ st.counter) :
    ((l.foldl (apply_wrap_step gi igl itl) st).subst.map Prod.snd).Nodup ∧
      (∀ p ∈ (l.foldl (apply_wrap_step gi igl itl) st).subst,
        lo ≤ p.2.id ∧ p.2.id < (l.foldl (apply_wrap_step gi igl itl) st).counter) := by
  induction l generalizing st with
  | nil => exact ⟨hn, hb⟩
  | cons v rest ih =>
    rw [List.foldl_cons]
    by_cases hv : v ∈ gi
    · cases hfd : dict_find st.subst v with
      | some nv =>
        rw [apply_wrap_step_global_found gi igl itl st v nv hv hfd]
        exact ih _ hn hb hlo
      | none =>
        rw [apply_wrap_step_global_new gi igl itl st v hv hfd]
        apply ih
        · rw [dict_set, List.map_cons, List.nodup_cons]
          refine ⟨?_, hn⟩
          intro hmem
          obtain ⟨p, hp, hpv⟩ := List.mem_map.mp hmem
          have := (hb p hp).2
          rw [hpv] at this
          exact absurd this (Nat.lt_irrefl _)
        · intro p hp
          rcases List.mem_cons.mp hp with h' | h'
          · subst h'
            exact ⟨hlo, Nat.lt_succ_self _⟩
          · have := hb p h'
            exact ⟨this.1, Nat.lt_succ_of_lt this.2⟩
        · exact Nat.le_succ_of_le hlo
    · rw [apply_wrap_step_nonglobal gi igl itl st v hv]
      exact ih _ hn hb hlo

theorem getD_map_range {α : Type} [Inhabited α] (f : Nat → α) (n i : Nat)
    (h : i < n) : ((List.range n).map f).getD i default = f i := by
  rw [List.getD_eq_getElem _ _ (by simpa using h)]
  simp

theorem subst1_keys (raw : ClosedJaxpr) (m : JEqn) (pos : Nat) :
    ∀ p ∈ subst1 raw m pos,
      p.1 ∈ raw.jaxpr.invars ∨ p.1 ∈ old_grad_vars raw m := by
  intro p hp
  rw [subst1, dict_update_eq, List.append_nil, List.mem_reverse] at hp
  have h1 := (List.of_mem_zip hp).1
  rw [acc_old_invars] at h1
  rcases List.mem_append.mp h1 with h | h
  · exact Or.inl ((mem_filter_used_vars _ _ _).mp h).1
  · exact Or.inr h

theorem subst2_keys (raw : ClosedJaxpr) (m : JEqn) (pos : Nat) :
    ∀ k v, dict_find (subst2 raw m pos) k = some v →
      k ∈ raw.jaxpr.invars ∨ k ∈ old_grad_vars raw m := by
  intro k v h
  have hp := dict_find_mem _ _ _ h
  rw [subst2, apply_wrap] at hp
  rcases apply_wrap_subst_mem _ _ _ _ _ (k, v) hp with h1 | ⟨_, h2, _, _⟩
  · exact subst1_keys raw m pos (k, v) h1
  · exact Or.inl h2

/-- C3 (amended): the combined program maps the *final* substitution
table over the concatenation of the original inputs and `oldGradVars`;
since the table binds the `oldGradVars` too (the step-3 update zips the
whole accumulate-grad `usedInvars`, accumulators included), the trailing
accumulator slots of the combined input list are the renamed copies of
`oldGradVars`, not `oldGradVars` themselves.  The output list is
`newOutvars`, and the constvars and constants are carried over
unchanged.  The table's keys are only global input variables and
`oldGradVars` entries. -/
theorem combined_assembly (raw : ClosedJaxpr) (num_micro_batches : Nat)
    (m : JEqn) (pos : Nat)
    (hfind : find_grad_marker raw.jaxpr.eqns 0 = some (m, pos)) :
    add_gradient_accumulation raw num_micro_batches =
      some (combined_jaxpr raw m pos num_micro_batches,
        accumulate_grad_invar_indices raw m pos,
        apply_grad_invar_indices raw m pos, num_grads m) ∧
      (combined_jaxpr raw m pos num_micro_batches).jaxpr.invars =
        (raw.jaxpr.invars ++ old_grad_vars raw m).map
          (fun x => dict_get_default (subst2 raw m pos) x) ∧
      (combined_jaxpr raw m pos num_micro_batches).jaxpr.outvars =
        new_outvars raw m pos ∧
      (combined_jaxpr raw m pos num_micro_batches).jaxpr.constvars =
        raw.jaxpr.constvars ∧
      (combined_jaxpr raw m pos num_micro_batches).consts = raw.consts ∧
      (∀ k v, dict_find (subst2 raw m pos) k = some v →
        k ∈ raw.jaxpr.invars ∨ k ∈ old_grad_vars raw m) := by
  refine ⟨?_, rfl, rfl, rfl, rfl, subst2_keys raw m pos⟩
  unfold add_gradient_accumulation
  rw [hfind]

theorem combined_assembly_witness :
    find_grad_marker Ex.P1.jaxpr.eqns 0 = some (Ex.eMark, 2) ∧
      (combined_jaxpr Ex.P1 Ex.eMark 2 4).consts = Ex.P1.consts :=
  ⟨by decide, (combined_assembly Ex.P1 4 Ex.eMark 2 (by decide)).2.2.2.2.1⟩

/-- C3 counterexample: on the concrete program `Ex.P1` (inputs `o, p, x`,
one grad marker with a single gradient, microbatch count 4) the combined
program's input list is *not* the substituted original inputs followed by
`oldGradVars`: the trailing accumulator slot differs from
`oldGradVars[0]` (it is that variable's renamed copy). -/
theorem combined_trailing_not_old_grad :
    add_gradient_accumulation Ex.P1 4 =
      some (combined_jaxpr Ex.P1 Ex.eMark 2 4, [0, 1, 2], [0, 1], 1) ∧
      (combined_jaxpr Ex.P1 Ex.eMark 2 4).jaxpr.invars ≠
        Ex.P1.jaxpr.invars.map
            (fun x => dict_get_default (subst2 Ex.P1 Ex.eMark 2) x) ++
          old_grad_vars Ex.P1 Ex.eMark ∧
      (combined_jaxpr Ex.P1 Ex.eMark 2 4).jaxpr.invars.length = 4 ∧
      (old_grad_vars Ex.P1 Ex.eMark).length = 1 ∧
      (combined_jaxpr Ex.P1 Ex.eMark 2 4).jaxpr.invars.getD 3 default ≠
        (old_grad_vars Ex.P1 Ex.eMark).getD 0 default := by
  decide

/-- C2 (amended): in the apply-grad region the `numGradVars` divide
operations come immediately after the region's start marker and
immediately *before* the unchanged `applyGradOps` (not after them); the
i-th divide takes the (last-minus-i)-th entry of the region's
`usedInvars` list and the literal scalar holding the microbatch count,
and writes its result back to the very same variable identity it read —
in place, deliberately breaking single-assignment form. -/
theorem divides_precede_apply_ops (raw : ClosedJaxpr)
    (num_micro_batches : Nat) (m : JEqn) (pos : Nat)
    (hfind : find_grad_marker raw.jaxpr.eqns 0 = some (m, pos)) :
    add_gradient_accumulation raw num_micro_batches =
      some (combined_jaxpr raw m pos num_micro_batches,
        accumulate_grad_invar_indices raw m pos,
        apply_grad_invar_indices raw m pos, num_grads m) ∧
      (combined_jaxpr raw m pos num_micro_batches).jaxpr.eqns =
        start_acc_eqn raw m pos ::
          (compute_grad_eqns raw pos ++ add_eqns raw m ++
            [end_acc_eqn raw m pos, start_apply_eqn raw m pos] ++
            div_eqns raw m pos num_micro_batches ++
            apply_grad_eqns raw pos ++ [end_apply_eqn raw m pos]) ∧
      (div_eqns raw m pos num_micro_batches).length = num_grads m ∧
      (∀ i, i < num_grads m →
        ∃ tmp_var,
          tmp_var = (apply_old_invars raw m pos).getD
            ((apply_old_invars raw m pos).length - (i + 1)) default ∧
          (div_eqns raw m pos num_micro_batches).getD i default =
            ⟨[Atom.var tmp_var,
              Atom.lit ⟨(num_micro_batches : Int), ⟨tmp_var.aval.dtype, []⟩⟩],
              [tmp_var], Primitive.div_p, Params.empty⟩) := by
  refine ⟨?_, rfl, by simp [div_eqns], ?_⟩
  · unfold add_gradient_accumulation
    rw [hfind]
  · intro i hi
    refine ⟨_, rfl, ?_⟩
    rw [div_eqns, getD_map_range _ _ _ hi]
    rfl

theorem divides_precede_apply_ops_witness :
    find_grad_marker Ex.P1.jaxpr.eqns 0 = some (Ex.eMark, 2) ∧
      (div_eqns Ex.P1 Ex.eMark 2 4).length = num_grads Ex.eMark :=
  ⟨by decide, (divides_precede_apply_ops Ex.P1 4 Ex.eMark 2 (by decide)).2.2.1⟩

/-- C2 counterexample: in the combined program built from `Ex.P1` the two
apply-grad operations are present but are *not* immediately followed by
the divide operation — there is no position where the apply-op block sits
with a divide right after it (the divide in fact precedes the block). -/
theorem apply_ops_not_followed_by_divides :
    Ex.eApp1 ∈ (combined_jaxpr Ex.P1 Ex.eMark 2 4).jaxpr.eqns ∧
      Ex.eApp2 ∈ (combined_jaxpr Ex.P1 Ex.eMark 2 4).jaxpr.eqns ∧
      add_gradient_accumulation Ex.P1 4 =
        some (combined_jaxpr Ex.P1 Ex.eMark 2 4, [0, 1, 2], [0, 1], 1) ∧
      ¬ (∃ k ∈ List.range (combined_jaxpr Ex.P1 Ex.eMark 2 4).jaxpr.eqns.length,
          (combined_jaxpr Ex.P1 Ex.eMark 2 4).jaxpr.eqns.getD k default =
            Ex.eApp1 ∧
          (combined_jaxpr Ex.P1 Ex.eMark 2 4).jaxpr.eqns.getD (k + 1) default =
            Ex.eApp2 ∧
          ((combined_jaxpr Ex.P1 Ex.eMark 2 4).jaxpr.eqns.getD (k + 2)
              default).primitive = Primitive.div_p) := by
  decide

/-! ### Lengths and id ranges of the cloned variable groups -/

theorem old_grad_vars_length (raw : ClosedJaxpr) (m : JEqn) :
    (old_grad_vars raw m).length = num_grads m := by
  simp [old_grad_vars, old_grad_clone, clone_avals_length, num_grads]

theorem new_grad_vars_length (raw : ClosedJaxpr) (m : JEqn) :
    (new_grad_vars raw m).length = num_grads m := by
  simp [new_grad_vars, new_grad_clone, clone_avals_length, num_grads]

theorem inter_grad_vars_length (raw : ClosedJaxpr) (m : JEqn) (pos : Nat) :
    (inter_grad_vars raw m pos).length = num_grads m := by
  simp [inter_grad_vars, inter_clone, clone_avals_length, num_grads]

theorem old_grad_clone_snd (raw : ClosedJaxpr) (m : JEqn) :
    (old_grad_clone raw m).2 = seed0 raw + num_grads m := by
  simp [old_grad_clone, clone_avals_snd, num_grads]

theorem new_grad_clone_snd (raw : ClosedJaxpr) (m : JEqn) :
    (new_grad_clone raw m).2 = seed0 raw + 2 * num_grads m := by
  simp [new_grad_clone, clone_avals_snd, num_grads, old_grad_clone_snd]
  omega

theorem acc_new_clone_snd (raw : ClosedJaxpr) (m : JEqn) (pos : Nat) :
    (acc_new_clone raw m pos).2 =
      seed0 raw + 2 * num_grads m + (acc_old_invars raw m pos).length := by
  simp [acc_new_clone, clone_vars, clone_avals_snd, new_grad_clone_snd]

theorem inter_clone_snd (raw : ClosedJaxpr) (m : JEqn) (pos : Nat) :
    (inter_clone raw m pos).2 =
      seed0 raw + 2 * num_grads m + (acc_old_invars raw m pos).length +
        num_grads m := by
  simp [inter_clone, clone_avals_snd, acc_new_clone_snd, num_grads]

/-- C6: the accumulation adds: exactly `numGradVars` of them, sitting
between the compute-grad operations and the accumulate-grad end marker
in the combined operation list, the i-th being the element-wise add
`newGradVars[i] = oldGradVars[i] + outGradVars[i]`, each occurring
exactly once; and all four gradient-variable groups have length
`numGradVars`, which is the arity of the boundary marker's input list. -/
theorem grad_accumulation_adds (raw : ClosedJaxpr) (num_micro_batches : Nat)
    (m : JEqn) (pos : Nat)
    (hfind : find_grad_marker raw.jaxpr.eqns 0 = some (m, pos)) :
    (old_grad_vars raw m).length = num_grads m ∧
      (new_grad_vars raw m).length = num_grads m ∧
      (inter_grad_vars raw m pos).length = num_grads m ∧
      (out_grad_vars m).length = num_grads m ∧
      num_grads m = m.invars.length ∧
      (add_eqns raw m).length = num_grads m ∧
      (∀ i, i < num_grads m →
        (add_eqns raw m).getD i default =
          ⟨[Atom.var ((old_grad_vars raw m).getD i default),
            (out_grad_vars m).getD i default],
            [(new_grad_vars raw m).getD i default],
            Primitive.add_p, Params.empty⟩ ∧
        (add_eqns raw m).count ((add_eqns raw m).getD i default) = 1 ∧
        (add_eqns raw m).getD i default ∉ compute_grad_eqns raw pos) ∧
      (combined_jaxpr raw m pos num_micro_batches).jaxpr.eqns =
        start_acc_eqn raw m pos ::
          (compute_grad_eqns raw pos ++ add_eqns raw m ++
            [end_acc_eqn raw m pos, start_apply_eqn raw m pos] ++
            div_eqns raw m pos num_micro_batches ++
            apply_grad_eqns raw pos ++ [end_apply_eqn raw m pos]) := by
  have hnodup : (add_eqns raw m).Nodup := by
    rw [add_eqns]
    refine List.Nodup.map_on ?_ (List.nodup_range _)
    intro i hi j hj heq
    rw [List.mem_range] at hi hj
    have hlen : ((out_grad_vars m).map Atom.aval).length = num_grads m := by
      simp [num_grads]
    have hgi := clone_avals_getD ((out_grad_vars m).map Atom.aval)
      (old_grad_clone raw m).2 i (by omega)
    have hgj := clone_avals_getD ((out_grad_vars m).map Atom.aval)
      (old_grad_clone raw m).2 j (by omega)
    have houts : (new_grad_vars raw m).getD i default =
        (new_grad_vars raw m).getD j default := by
      have := congrArg JEqn.outvars heq
      simpa [add_eqn] using this
    rw [new_grad_vars, new_grad_clone, hgi, hgj] at houts
    have := congrArg Var.id houts
    simpa using this
  refine ⟨old_grad_vars_length raw m, new_grad_vars_length raw m,
    inter_grad_vars_length raw m pos, rfl, rfl, by simp [add_eqns], ?_, rfl⟩
  intro i hi
  have hgetD : (add_eqns raw m).getD i default = add_eqn raw m i := by
    rw [add_eqns, getD_map_range _ _ _ hi]
  have hmem : (add_eqns raw m).getD i default ∈ add_eqns raw m := by
    apply getD_mem
    simpa [add_eqns] using hi
  refine ⟨by rw [hgetD]; rfl, List.count_eq_one_of_mem hnodup hmem, ?_⟩
  intro hcomp
  have hsub : (add_eqns raw m).getD i default ∈ raw.jaxpr.eqns :=
    List.take_subset pos raw.jaxpr.eqns hcomp
  have hout : (new_grad_vars raw m).getD i default ∈ jaxprVars raw.jaxpr := by
    apply eqn_outvars_subset_jaxprVars raw.jaxpr _ hsub
    rw [hgetD]
    exact List.mem_singleton.mpr rfl
  have hlt := jaxprVars_id_lt_seed raw.jaxpr _ hout
  have hid : ((new_grad_vars raw m).getD i default).id =
      seed0 raw + num_grads m + i := by
    rw [new_grad_vars, new_grad_clone,
      clone_avals_getD _ _ i (by simpa [num_grads] using hi),
      old_grad_clone_snd]
  rw [hid] at hlt
  have : gensym_seed raw.jaxpr = seed0 raw := rfl
  omega

theorem grad_accumulation_adds_witness :
    find_grad_marker Ex.P1.jaxpr.eqns 0 = some (Ex.eMark, 2) ∧
      (old_grad_vars Ex.P1 Ex.eMark).length = num_grads Ex.eMark :=
  ⟨by decide, (grad_accumulation_adds Ex.P1 4 Ex.eMark 2 (by decide)).1⟩

theorem getD_map_lt {α β : Type} [Inhabited α] [Inhabited β] (f : α → β)
    (l : List α) (i : Nat) (h : i < l.length) :
    (l.map f).getD i default = f (l.getD i default) := by
  rw [List.getD_eq_getElem _ _ (by simpa using h), List.getD_eq_getElem _ _ h]
  simp

theorem nodup_append_of_bound (l₁ l₂ : List Var) (b : Nat)
    (h₁ : l₁.Nodup) (h₂ : l₂.Nodup)
    (hb₁ : ∀ v ∈ l₁, v.id < b) (hb₂ : ∀ v ∈ l₂, b ≤ v.id) :
    (l₁ ++ l₂).Nodup := by
  rw [List.nodup_append]
  refine ⟨h₁, h₂, ?_⟩
  intro v hv hv2
  have hx := hb₁ v hv
  have hy := hb₂ v hv2
  omega

/-- Every variable minted during one invocation of the rewriter, in the
order the gensym calls happen. -/
def minted_vars (raw : ClosedJaxpr) (m : JEqn) (pos : Nat) : List Var :=
  old_grad_vars raw m ++ new_grad_vars raw m ++ acc_new_invars raw m pos ++
    inter_grad_vars raw m pos ++ (apply_wrap raw m pos).minted ++
    new_outvars raw m pos

theorem old_grad_vars_bounds (raw : ClosedJaxpr) (m : JEqn) :
    ∀ v ∈ old_grad_vars raw m,
      seed0 raw ≤ v.id ∧ v.id < seed0 raw + num_grads m := by
  intro v hv
  have := clone_avals_id_bounds ((out_grad_vars m).map Atom.aval) (seed0 raw) v hv
  simpa [num_grads] using this

theorem new_grad_vars_bounds (raw : ClosedJaxpr) (m : JEqn) :
    ∀ v ∈ new_grad_vars raw m,
      seed0 raw + num_grads m ≤ v.id ∧
        v.id < seed0 raw + 2 * num_grads m := by
  intro v hv
  have := clone_avals_id_bounds ((out_grad_vars m).map Atom.aval)
    (old_grad_clone raw m).2 v hv
  rw [old_grad_clone_snd] at this
  constructor
  · exact this.1
  · have h2 := this.2
    simp [num_grads] at h2 ⊢
    omega

theorem acc_new_invars_bounds (raw : ClosedJaxpr) (m : JEqn) (pos : Nat) :
    ∀ v ∈ acc_new_invars raw m pos,
      seed0 raw + 2 * num_grads m ≤ v.id ∧
        v.id < seed0 raw + 2 * num_grads m +
          (acc_old_invars raw m pos).length := by
  intro v hv
  have := clone_avals_id_bounds ((acc_old_invars raw m pos).map Var.aval)
    (new_grad_clone raw m).2 v hv
  rw [new_grad_clone_snd] at this
  simpa using this

theorem inter_grad_vars_bounds (raw : ClosedJaxpr) (m : JEqn) (pos : Nat) :
    ∀ v ∈ inter_grad_vars raw m pos,
      (acc_new_clone raw m pos).2 ≤ v.id ∧
        v.id < (inter_clone raw m pos).2 := by
  intro v hv
  have := clone_avals_id_bounds ((out_grad_vars m).map Atom.aval)
    (acc_new_clone raw m pos).2 v hv
  rw [inter_clone_snd, acc_new_clone_snd]
  rw [acc_new_clone_snd] at this
  simpa [num_grads] using this

theorem apply_wrap_minted_range (raw : ClosedJaxpr) (m : JEqn) (pos : Nat) :
    ∀ v ∈ (apply_wrap raw m pos).minted,
      (inter_clone raw m pos).2 ≤ v.id ∧
        v.id < (apply_wrap raw m pos).counter := by
  intro v hv
  rw [apply_wrap] at hv
  rcases apply_wrap_minted_bounds _ _ _ _ _ v hv with h | h
  · simp at h
  · exact h

theorem apply_wrap_minted_nodup' (raw : ClosedJaxpr) (m : JEqn) (pos : Nat) :
    (apply_wrap raw m pos).minted.Nodup := by
  rw [apply_wrap]
  exact (apply_wrap_minted_nodup _ _ _ _ _ (by simp) (by simp)).1

theorem apply_wrap_counter_ge (raw : ClosedJaxpr) (m : JEqn) (pos : Nat) :
    (inter_clone raw m pos).2 ≤ (apply_wrap raw m pos).counter := by
  rw [apply_wrap]
  exact apply_wrap_counter_mono raw.jaxpr.invars (in_grad_vars m)
    (inter_grad_vars raw m pos) (apply_old_invars raw m pos)
    ⟨[], subst1 raw m pos, (inter_clone raw m pos).2, []⟩

theorem new_outvars_bounds (raw : ClosedJaxpr) (m : JEqn) (pos : Nat) :
    ∀ v ∈ new_outvars raw m pos,
      (apply_wrap raw m pos).counter ≤ v.id := by
  intro v hv
  exact (clone_avals_id_bounds (raw.jaxpr.outvars.map Var.aval)
    (apply_wrap raw m pos).counter v hv).1

/-- C9: every variable minted during one invocation of the rewriter (via
the gensym supply seeded from the input program's full variable set) is
distinct from every variable occurring anywhere in the input program and
from every other variable minted in the same invocation; and
`clone_vars` returns exactly one fresh variable per input variable,
preserving each one's descriptor and positional order. -/
theorem fresh_vars_distinct (raw : ClosedJaxpr) (m : JEqn) (pos : Nat)
    (hfind : find_grad_marker raw.jaxpr.eqns 0 = some (m, pos))
    (var_list : List Var) (c : Nat) :
    ((clone_vars var_list c).1.length = var_list.length ∧
      (clone_vars var_list c).1.map Var.aval = var_list.map Var.aval ∧
      (clone_vars var_list c).1.Nodup ∧
      (∀ i, i < var_list.length →
        (clone_vars var_list c).1.getD i default =
          ⟨c + i, (var_list.getD i default).aval⟩)) ∧
      (minted_vars raw m pos).Nodup ∧
      (∀ v ∈ minted_vars raw m pos, ∀ w ∈ jaxprVars raw.jaxpr, v ≠ w) := by
  clear hfind
  constructor
  · refine ⟨by simp [clone_vars, clone_avals_length], ?_, ?_, ?_⟩
    · rw [clone_vars, clone_avals_map_aval]
    · exact clone_avals_nodup _ _
    · intro i hi
      rw [clone_vars, clone_avals_getD _ _ i (by simpa using hi),
        getD_map_lt Var.aval var_list i hi]
  · have hold := old_grad_vars_bounds raw m
    have hnew := new_grad_vars_bounds raw m
    have hacc := acc_new_invars_bounds raw m pos
    have hinter := inter_grad_vars_bounds raw m pos
    have hwrap := apply_wrap_minted_range raw m pos
    have houtv := new_outvars_bounds raw m pos
    have hcge := apply_wrap_counter_ge raw m pos
    have hco : (acc_new_clone raw m pos).2 =
        seed0 raw + 2 * num_grads m + (acc_old_invars raw m pos).length :=
      acc_new_clone_snd raw m pos
    have hic : (inter_clone raw m pos).2 =
        seed0 raw + 2 * num_grads m + (acc_old_invars raw m pos).length +
          num_grads m :=
      inter_clone_snd raw m pos
    have h12 : (old_grad_vars raw m ++ new_grad_vars raw m).Nodup := by
      apply nodup_append_of_bound _ _ (seed0 raw + num_grads m)
        (clone_avals_nodup _ _) (clone_avals_nodup _ _)
      · intro v hv; exact (hold v hv).2
      · intro v hv; exact (hnew v hv).1
    have hb12 : ∀ v ∈ old_grad_vars raw m ++ new_grad_vars raw m,
        v.id < seed0 raw + 2 * num_grads m := by
      intro v hv
      rcases List.mem_append.mp hv with h | h
      · have := (hold v h).2; omega
      · exact (hnew v h).2
    have h123 : (old_grad_vars raw m ++ new_grad_vars raw m ++
        acc_new_invars raw m pos).Nodup := by
      apply nodup_append_of_bound _ _ (seed0 raw + 2 * num_grads m) h12
        (clone_avals_nodup _ _) hb12
      intro v hv; exact (hacc v hv).1
    have hb123 : ∀ v ∈ old_grad_vars raw m ++ new_grad_vars raw m ++
        acc_new_invars raw m pos, v.id < (acc_new_clone raw m pos).2 := by
      intro v hv
      rcases List.mem_append.mp hv with h | h
      · have := hb12 v h; omega
      · have := (hacc v h).2; omega
    have h1234 : (old_grad_vars raw m ++ new_grad_vars raw m ++
        acc_new_invars raw m pos ++ inter_grad_vars raw m pos).Nodup := by
      apply nodup_append_of_bound _ _ (acc_new_clone raw m pos).2 h123
        (clone_avals_nodup _ _) hb123
      intro v hv; exact (hinter v hv).1
    have hb1234 : ∀ v ∈ old_grad_vars raw m ++ new_grad_vars raw m ++
        acc_new_invars raw m pos ++ inter_grad_vars raw m pos,
        v.id < (inter_clone raw m pos).2 := by
      intro v hv
      rcases List.mem_append.mp hv with h | h
      · have := hb123 v h; omega
      · exact (hinter v h).2
    have h12345 : (old_grad_vars raw m ++ new_grad_vars raw m ++
        acc_new_invars raw m pos ++ inter_grad_vars raw m pos ++
        (apply_wrap raw m pos).minted).Nodup := by
      apply nodup_append_of_bound _ _ (inter_clone raw m pos).2 h1234
        (apply_wrap_minted_nodup' raw m pos) hb1234
      intro v hv; exact (hwrap v hv).1
    have hb12345 : ∀ v ∈ old_grad_vars raw m ++ new_grad_vars raw m ++
        acc_new_invars raw m pos ++ inter_grad_vars raw m pos ++
        (apply_wrap raw m pos).minted,
        v.id < (apply_wrap raw m pos).counter := by
      intro v hv
      rcases List.mem_append.mp hv with h | h
      · have := hb1234 v h; omega
      · exact (hwrap v h).2
    constructor
    · rw [minted_vars]
      apply nodup_append_of_bound _ _ (apply_wrap raw m pos).counter h12345
        (clone_avals_nodup _ _) hb12345
      exact houtv
    · intro v hv w hw heq
      have hwlt : w.id < seed0 raw := jaxprVars_id_lt_seed raw.jaxpr w hw
      have hvge : seed0 raw ≤ v.id := by
        rw [minted_vars] at hv
        rcases List.mem_append.mp hv with h | h
        · rcases List.mem_append.mp h with h | h
          · rcases List.mem_append.mp h with h | h
            · rcases List.mem_append.mp h with h | h
              · rcases List.mem_append.mp h with h | h
                · exact (hold v h).1
                · have := (hnew v h).1; omega
              · have := (hacc v h).1; omega
            · have := (hinter v h).1; omega
          · have := (hwrap v h).1; omega
        · have := houtv v h
          omega
      rw [heq] at hvge
      omega

theorem fresh_vars_distinct_witness :
    find_grad_marker Ex.P1.jaxpr.eqns 0 = some (Ex.eMark, 2) ∧
      (clone_vars [Ex.vO] 100).1.length = [Ex.vO].length ∧
      (minted_vars Ex.P1 Ex.eMark 2).Nodup :=
  ⟨by decide,
    (fresh_vars_distinct Ex.P1 Ex.eMark 2 (by decide) [Ex.vO] 100).1.1,
    (fresh_vars_distinct Ex.P1 Ex.eMark 2 (by decide) [Ex.vO] 100).2.1⟩

/-! ### Index-mapping machinery -/

/-- Positions of the surviving elements of a filter, inside a nodup list,
are strictly increasing. -/
theorem sorted_filter_index (l : List Var) (p : Var → Bool) (hn : l.Nodup) :
    List.Sorted (· < ·) ((l.filter p).map (fun x => list_index l x)) := by
  induction l with
  | nil => simp
  | cons a rest ih =>
    rcases List.nodup_cons.mp hn with ⟨hna, hnr⟩
    have hcongr : (rest.filter p).map (fun x => list_index (a :: rest) x) =
        (rest.filter p).map (fun x => list_index rest x + 1) := by
      apply List.map_congr_left
      intro x hx
      have hxr : x ∈ rest := List.mem_of_mem_filter hx
      have hne : ¬(a = x) := fun h => hna (h ▸ hxr)
      rw [list_index_cons, if_neg hne]
    have hshift : (rest.filter p).map (fun x => list_index rest x + 1) =
        ((rest.filter p).map (fun x => list_index rest x)).map (· + 1) := by
      rw [List.map_map]
      rfl
    have hsorted : List.Sorted (· < ·)
        ((rest.filter p).map (fun x => list_index (a :: rest) x)) := by
      rw [hcongr, hshift]
      refine List.Pairwise.map _ ?_ (ih hnr)
      intro x y hxy
      omega
    by_cases hpa : p a
    · rw [List.filter_cons_of_pos hpa, List.map_cons]
      rw [List.sorted_cons]
      refine ⟨?_, hsorted⟩
      intro b hb
      rw [hcongr, hshift] at hb
      obtain ⟨y, _, rfl⟩ := List.mem_map.mp hb
      have : list_index (a :: rest) a = 0 := by rw [list_index_cons, if_pos rfl]
      rw [this]
      omega
    · rw [List.filter_cons_of_neg (by simpa using hpa)]
      exact hsorted

theorem filter_index_lt (l : List Var) (p : Var → Bool) :
    ∀ i ∈ (l.filter p).map (fun x => list_index l x), i < l.length := by
  intro i hi
  obtain ⟨x, hx, rfl⟩ := List.mem_map.mp hi
  exact list_index_lt_length l x (List.mem_of_mem_filter hx)

theorem invar_id_lt_seed (raw : ClosedJaxpr) (v : Var)
    (hv : v ∈ raw.jaxpr.invars) : v.id < seed0 raw :=
  jaxprVars_id_lt_seed raw.jaxpr v (invars_subset_jaxprVars raw.jaxpr v hv)

theorem acc_used_subset (raw : ClosedJaxpr) (pos : Nat) :
    ∀ v ∈ acc_used_invars raw pos, v ∈ raw.jaxpr.invars := by
  intro v hv
  exact ((mem_filter_used_vars _ _ _).mp hv).1

theorem apply_used_subset (raw : ClosedJaxpr) (pos : Nat) :
    ∀ v ∈ apply_used_invars raw pos, v ∈ raw.jaxpr.invars := by
  intro v hv
  exact ((mem_filter_used_vars _ _ _).mp hv).1

theorem old_grad_not_mem_invars (raw : ClosedJaxpr) (m : JEqn) (v : Var)
    (hv : v ∈ old_grad_vars raw m) : v ∉ raw.jaxpr.invars := by
  intro hmem
  have h1 := (old_grad_vars_bounds raw m v hv).1
  have h2 := invar_id_lt_seed raw v hmem
  omega

theorem acc_old_invars_nodup (raw : ClosedJaxpr) (m : JEqn) (pos : Nat)
    (hnodup : raw.jaxpr.invars.Nodup) : (acc_old_invars raw m pos).Nodup := by
  rw [acc_old_invars, List.nodup_append]
  refine ⟨filter_used_vars_nodup _ _ hnodup, clone_avals_nodup _ _, ?_⟩
  intro v hv hv2
  exact old_grad_not_mem_invars raw m v hv2 (acc_used_subset raw pos v hv)

theorem acc_old_invars_length (raw : ClosedJaxpr) (m : JEqn) (pos : Nat) :
    (acc_old_invars raw m pos).length =
      (acc_used_invars raw pos).length + num_grads m := by
  rw [acc_old_invars, List.length_append, old_grad_vars_length]

theorem acc_new_invars_length (raw : ClosedJaxpr) (m : JEqn) (pos : Nat) :
    (acc_new_invars raw m pos).length = (acc_old_invars raw m pos).length := by
  rw [acc_new_invars, acc_new_clone, clone_vars]
  rw [clone_avals_length, List.length_map]

/-- The step-3 table binds the i-th accumulate-grad `old_invar` to the
i-th renamed copy. -/
theorem subst1_find_getD (raw : ClosedJaxpr) (m : JEqn) (pos : Nat)
    (hnodup : raw.jaxpr.invars.Nodup) (i : Nat)
    (hi : i < (acc_old_invars raw m pos).length) :
    dict_find (subst1 raw m pos) ((acc_old_invars raw m pos).getD i default) =
      some ((acc_new_invars raw m pos).getD i default) := by
  rw [subst1, dict_update_eq, List.append_nil]
  exact dict_find_zip_reverse _ _ (acc_new_invars_length raw m pos).symm
    (acc_old_invars_nodup raw m pos hnodup) i hi

theorem list_ext_getD {α : Type} [Inhabited α] (l₁ l₂ : List α)
    (hlen : l₁.length = l₂.length)
    (h : ∀ i, i < l₁.length → l₁.getD i default = l₂.getD i default) :
    l₁ = l₂ := by
  apply List.ext_getElem hlen
  intro n h1 h2
  have hn := h n h1
  rwa [List.getD_eq_getElem _ _ h1, List.getD_eq_getElem _ _ h2] at hn

theorem getD_take {α : Type} [Inhabited α] (l : List α) (k i : Nat)
    (hik : i < k) (hil : i < l.length) :
    (l.take k).getD i default = l.getD i default := by
  rw [List.getD_eq_getElem _ _ (by simp [List.length_take]; omega),
    List.getD_eq_getElem _ _ hil]
  exact List.getElem_take l

theorem subst1_values (raw : ClosedJaxpr) (m : JEqn) (pos : Nat) :
    (subst1 raw m pos).map Prod.snd = (acc_new_invars raw m pos).reverse := by
  rw [subst1, dict_update_eq, List.append_nil, List.map_reverse,
    List.map_snd_zip _ _ (le_of_eq (acc_new_invars_length raw m pos))]

theorem subst1_values_nodup (raw : ClosedJaxpr) (m : JEqn) (pos : Nat) :
    ((subst1 raw m pos).map Prod.snd).Nodup := by
  rw [subst1_values]
  exact List.nodup_reverse.mpr (clone_avals_nodup _ _)

theorem subst1_value_bounds (raw : ClosedJaxpr) (m : JEqn) (pos : Nat) :
    ∀ p ∈ subst1 raw m pos,
      seed0 raw + 2 * num_grads m ≤ p.2.id ∧
        p.2.id < (inter_clone raw m pos).2 := by
  intro p hp
  rw [subst1, dict_update_eq, List.append_nil, List.mem_reverse] at hp
  have h2 := (List.of_mem_zip hp).2
  have hb := acc_new_invars_bounds raw m pos p.2 h2
  have hco := acc_new_clone_snd raw m pos
  have hic := inter_clone_snd raw m pos
  omega

theorem subst2_value_facts (raw : ClosedJaxpr) (m : JEqn) (pos : Nat) :
    ((subst2 raw m pos).map Prod.snd).Nodup ∧
      ∀ p ∈ subst2 raw m pos,
        seed0 raw + 2 * num_grads m ≤ p.2.id ∧
          p.2.id < (apply_wrap raw m pos).counter := by
  rw [subst2, apply_wrap]
  exact apply_wrap_subst_values raw.jaxpr.invars (in_grad_vars m)
    (inter_grad_vars raw m pos) (apply_old_invars raw m pos)
    ⟨[], subst1 raw m pos, (inter_clone raw m pos).2, []⟩
    (seed0 raw + 2 * num_grads m)
    (subst1_values_nodup raw m pos) (subst1_value_bounds raw m pos)
    (by
      have hco := acc_new_clone_snd raw m pos
      have hic := inter_clone_snd raw m pos
      show seed0 raw + 2 * num_grads m ≤ (inter_clone raw m pos).2
      omega)

/-- The i-th accumulate-grad `old_invar` keeps its renamed copy in the
final substitution table as well. -/
theorem subst2_find_getD (raw : ClosedJaxpr) (m : JEqn) (pos : Nat)
    (hnodup : raw.jaxpr.invars.Nodup) (i : Nat)
    (hi : i < (acc_old_invars raw m pos).length) :
    dict_find (subst2 raw m pos) ((acc_old_invars raw m pos).getD i default) =
      some ((acc_new_invars raw m pos).getD i default) := by
  rw [subst2, apply_wrap]
  exact apply_wrap_find_preserved raw.jaxpr.invars (in_grad_vars m)
    (inter_grad_vars raw m pos) (apply_old_invars raw m pos)
    ⟨[], subst1 raw m pos, (inter_clone raw m pos).2, []⟩ _ _
    (subst1_find_getD raw m pos hnodup i hi)

/-- Splitting the apply-grad renaming loop at the `usedInvars`/`inGradVars`
boundary: the renamed list is the final-table image of the used global
invars followed by the matching `interGradVars` slots, and the final table
is already complete after the global stage. -/
theorem apply_wrap_decomp (raw : ClosedJaxpr) (m : JEqn) (pos : Nat)
    (hdisj : ∀ v ∈ in_grad_vars m, v ∉ raw.jaxpr.invars) :
    apply_new_invars raw m pos =
      (apply_used_invars raw pos).map
          (fun v => dict_get_default (subst2 raw m pos) v) ++
        (in_grad_vars m).map
          (fun v => (inter_grad_vars raw m pos).getD
            (list_index (in_grad_vars m) v) default) := by
  have hsplit : apply_wrap raw m pos =
      (in_grad_vars m).foldl
        (apply_wrap_step raw.jaxpr.invars (in_grad_vars m)
          (inter_grad_vars raw m pos))
        ((apply_used_invars raw pos).foldl
          (apply_wrap_step raw.jaxpr.invars (in_grad_vars m)
            (inter_grad_vars raw m pos))
          ⟨[], subst1 raw m pos, (inter_clone raw m pos).2, []⟩) := by
    rw [apply_wrap, apply_old_invars, List.foldl_append]
  have hstage2 := apply_wrap_nonglobal_stage raw.jaxpr.invars (in_grad_vars m)
    (inter_grad_vars raw m pos) (in_grad_vars m)
    ((apply_used_invars raw pos).foldl
      (apply_wrap_step raw.jaxpr.invars (in_grad_vars m)
        (inter_grad_vars raw m pos))
      ⟨[], subst1 raw m pos, (inter_clone raw m pos).2, []⟩) hdisj
  have hsub : subst2 raw m pos =
      ((apply_used_invars raw pos).foldl
        (apply_wrap_step raw.jaxpr.invars (in_grad_vars m)
          (inter_grad_vars raw m pos))
        ⟨[], subst1 raw m pos, (inter_clone raw m pos).2, []⟩).subst := by
    rw [subst2, hsplit, hstage2]
  have hstage1 := apply_wrap_global_stage raw.jaxpr.invars (in_grad_vars m)
    (inter_grad_vars raw m pos) (apply_used_invars raw pos)
    ⟨[], subst1 raw m pos, (inter_clone raw m pos).2, []⟩
    (apply_used_subset raw pos)
  rw [apply_new_invars, hsplit, hstage2]
  show ((apply_used_invars raw pos).foldl
      (apply_wrap_step raw.jaxpr.invars (in_grad_vars m)
        (inter_grad_vars raw m pos))
      ⟨[], subst1 raw m pos, (inter_clone raw m pos).2, []⟩).new_invars ++ _ = _
  rw [hstage1]
  show [] ++ _ ++ _ = _
  rw [List.nil_append, ← hsub]

theorem apply_new_invars_length (raw : ClosedJaxpr) (m : JEqn) (pos : Nat)
    (hdisj : ∀ v ∈ in_grad_vars m, v ∉ raw.jaxpr.invars) :
    (apply_new_invars raw m pos).length =
      (apply_used_invars raw pos).length + (in_grad_vars m).length := by
  rw [apply_wrap_decomp raw m pos hdisj]
  simp

theorem mem_base_id_lt (raw : ClosedJaxpr) (m : JEqn) :
    ∀ x ∈ raw.jaxpr.invars ++ old_grad_vars raw m,
      x.id < seed0 raw + 2 * num_grads m := by
  intro x hx
  rcases List.mem_append.mp hx with h | h
  · have := invar_id_lt_seed raw x h
    omega
  · have h1 := (old_grad_vars_bounds raw m x h).2
    have h2 : (old_grad_vars raw m).length = num_grads m :=
      old_grad_vars_length raw m
    have h3 : 0 < num_grads m := by
      rcases Nat.eq_zero_or_pos (num_grads m) with h0 | h0
      · rw [← h2] at h0
        rw [List.length_eq_zero] at h0
        rw [h0] at h
        simp at h
      · exact h0
    omega

theorem base_nodup (raw : ClosedJaxpr) (m : JEqn)
    (hnodup : raw.jaxpr.invars.Nodup) :
    (raw.jaxpr.invars ++ old_grad_vars raw m).Nodup := by
  apply nodup_append_of_bound _ _ (seed0 raw) hnodup (clone_avals_nodup _ _)
  · exact fun v hv => invar_id_lt_seed raw v hv
  · exact fun v hv => (old_grad_vars_bounds raw m v hv).1

theorem combined_invars_nodup (raw : ClosedJaxpr) (m : JEqn) (pos : Nat)
    (hnodup : raw.jaxpr.invars.Nodup) :
    (combined_invars raw m pos).Nodup := by
  rw [combined_invars]
  apply List.Nodup.map_on ?_ (base_nodup raw m hnodup)
  intro x hx y hy heq
  cases hfx : dict_find (subst2 raw m pos) x with
  | some vx =>
    cases hfy : dict_find (subst2 raw m pos) y with
    | some vy =>
      rw [dict_get_default, hfx, dict_get_default, hfy] at heq
      simp only [Option.getD_some] at heq
      subst heq
      exact dict_find_inj _ (subst2_value_facts raw m pos).1 x y vx hfx hfy
    | none =>
      exfalso
      rw [dict_get_default, hfx, dict_get_default, hfy] at heq
      simp only [Option.getD_some, Option.getD_none] at heq
      have h1 : seed0 raw + 2 * num_grads m ≤ vx.id :=
        ((subst2_value_facts raw m pos).2 (x, vx)
          (dict_find_mem _ _ _ hfx)).1
      have h2 := mem_base_id_lt raw m y hy
      rw [heq] at h1
      omega
  | none =>
    cases hfy : dict_find (subst2 raw m pos) y with
    | some vy =>
      exfalso
      rw [dict_get_default, hfx, dict_get_default, hfy] at heq
      simp only [Option.getD_some, Option.getD_none] at heq
      have h1 : seed0 raw + 2 * num_grads m ≤ vy.id :=
        ((subst2_value_facts raw m pos).2 (y, vy)
          (dict_find_mem _ _ _ hfy)).1
      have h2 := mem_base_id_lt raw m x hx
      rw [← heq] at h1
      omega
    | none =>
      rw [dict_get_default, hfx, dict_get_default, hfy] at heq
      simpa using heq

theorem combined_invars_length (raw : ClosedJaxpr) (m : JEqn) (pos : Nat) :
    (combined_invars raw m pos).length =
      raw.jaxpr.invars.length + num_grads m := by
  rw [combined_invars, List.length_map, List.length_append,
    old_grad_vars_length]

theorem combined_invars_getD (raw : ClosedJaxpr) (m : JEqn) (pos : Nat)
    (j : Nat) (hj : j < (raw.jaxpr.invars ++ old_grad_vars raw m).length) :
    (combined_invars raw m pos).getD j default =
      dict_get_default (subst2 raw m pos)
        ((raw.jaxpr.invars ++ old_grad_vars raw m).getD j default) := by
  rw [combined_invars, getD_map_lt _ _ j hj]

/-- The renamed copy of a global input variable sits in the combined input
list exactly at that variable's original position. -/
theorem index_of_subst_combined (raw : ClosedJaxpr) (m : JEqn) (pos : Nat)
    (hnodup : raw.jaxpr.invars.Nodup) (x : Var) (hx : x ∈ raw.jaxpr.invars) :
    list_index (combined_invars raw m pos)
        (dict_get_default (subst2 raw m pos) x) =
      list_index raw.jaxpr.invars x ∧
    (combined_invars raw m pos).getD (list_index raw.jaxpr.invars x) default =
      dict_get_default (subst2 raw m pos) x := by
  have hj : list_index raw.jaxpr.invars x < raw.jaxpr.invars.length :=
    list_index_lt_length _ _ hx
  have hgetj : raw.jaxpr.invars.getD (list_index raw.jaxpr.invars x) default = x :=
    getD_list_index _ _ hx
  have hbase : (raw.jaxpr.invars ++ old_grad_vars raw m).getD
      (list_index raw.jaxpr.invars x) default = x := by
    rw [getD_append_left _ _ _ hj, hgetj]
  have hcomb : (combined_invars raw m pos).getD
      (list_index raw.jaxpr.invars x) default =
      dict_get_default (subst2 raw m pos) x := by
    rw [combined_invars_getD raw m pos _ (by simp; omega), hbase]
  refine ⟨?_, hcomb⟩
  rw [← hcomb]
  apply list_index_getD_of_nodup _ (combined_invars_nodup raw m pos hnodup)
  rw [combined_invars_length]
  omega

theorem acc_new_prefix_val (raw : ClosedJaxpr) (m : JEqn) (pos : Nat)
    (hnodup : raw.jaxpr.invars.Nodup) (i : Nat)
    (hi : i < (acc_used_invars raw pos).length) :
    (acc_new_invars raw m pos).getD i default =
      dict_get_default (subst2 raw m pos)
        ((acc_used_invars raw pos).getD i default) ∧
      (acc_used_invars raw pos).getD i default ∈ raw.jaxpr.invars := by
  have hij : i < (acc_old_invars raw m pos).length := by
    rw [acc_old_invars_length]
    omega
  have hfind := subst2_find_getD raw m pos hnodup i hij
  have hold : (acc_old_invars raw m pos).getD i default =
      (acc_used_invars raw pos).getD i default := by
    rw [acc_old_invars]
    exact getD_append_left _ _ i hi
  rw [hold] at hfind
  refine ⟨?_, acc_used_subset raw pos _ (getD_mem _ i hi)⟩
  rw [dict_get_default, hfind]
  rfl

theorem apply_new_prefix_val (raw : ClosedJaxpr) (m : JEqn) (pos : Nat)
    (hdisj : ∀ v ∈ in_grad_vars m, v ∉ raw.jaxpr.invars) (i : Nat)
    (hi : i < (apply_used_invars raw pos).length) :
    (apply_new_invars raw m pos).getD i default =
      dict_get_default (subst2 raw m pos)
        ((apply_used_invars raw pos).getD i default) ∧
      (apply_used_invars raw pos).getD i default ∈ raw.jaxpr.invars := by
  rw [apply_wrap_decomp raw m pos hdisj]
  have hmap : i < ((apply_used_invars raw pos).map
      (fun v => dict_get_default (subst2 raw m pos) v)).length := by
    rw [List.length_map]
    exact hi
  rw [getD_append_left _ _ i hmap, getD_map_lt _ _ i hi]
  exact ⟨rfl, apply_used_subset raw pos _ (getD_mem _ i hi)⟩

/-- `accumulateGradInputIndices` is the list of original positions of the
compute-grad-used global input variables. -/
theorem acc_indices_eq (raw : ClosedJaxpr) (m : JEqn) (pos : Nat)
    (hnodup : raw.jaxpr.invars.Nodup) (hng : 1 ≤ num_grads m) :
    accumulate_grad_invar_indices raw m pos =
      (acc_used_invars raw pos).map
        (fun x => list_index raw.jaxpr.invars x) := by
  rw [accumulate_grad_invar_indices, py_drop_last_of_pos _ _ (by omega)]
  have hlen1 : (acc_new_invars raw m pos).length =
      (acc_used_invars raw pos).length + num_grads m := by
    rw [acc_new_invars_length, acc_old_invars_length]
  have hk : (acc_new_invars raw m pos).length - num_grads m =
      (acc_used_invars raw pos).length := by omega
  rw [hk]
  apply list_ext_getD
  · simp only [List.length_map, List.length_take]
    omega
  · intro i hi
    have hik : i < (acc_used_invars raw pos).length := by
      simp only [List.length_map, List.length_take] at hi
      omega
    rw [getD_map_lt _ _ i (by simp only [List.length_take]; omega),
      getD_map_lt _ _ i hik,
      getD_take _ _ i hik (by omega)]
    obtain ⟨hF, hmem⟩ := acc_new_prefix_val raw m pos hnodup i hik
    rw [hF]
    exact (index_of_subst_combined raw m pos hnodup _ hmem).1

/-- `applyGradInputIndices` is the list of original positions of the
apply-grad-used global input variables. -/
theorem apply_indices_eq (raw : ClosedJaxpr) (m : JEqn) (pos : Nat)
    (hnodup : raw.jaxpr.invars.Nodup) (hng : 1 ≤ num_grads m)
    (harity : (in_grad_vars m).length = num_grads m)
    (hdisj : ∀ v ∈ in_grad_vars m, v ∉ raw.jaxpr.invars) :
    apply_grad_invar_indices raw m pos =
      (apply_used_invars raw pos).map
        (fun x => list_index raw.jaxpr.invars x) := by
  rw [apply_grad_invar_indices, py_drop_last_of_pos _ _ (by omega)]
  have hlen1 : (apply_new_invars raw m pos).length =
      (apply_used_invars raw pos).length + num_grads m := by
    rw [apply_new_invars_length raw m pos hdisj, harity]
  have hk : (apply_new_invars raw m pos).length - num_grads m =
      (apply_used_invars raw pos).length := by omega
  rw [hk]
  apply list_ext_getD
  · simp only [List.length_map, List.length_take]
    omega
  · intro i hi
    have hik : i < (apply_used_invars raw pos).length := by
      simp only [List.length_map, List.length_take] at hi
      omega
    rw [getD_map_lt _ _ i (by simp only [List.length_take]; omega),
      getD_map_lt _ _ i hik,
      getD_take _ _ i hik (by omega)]
    obtain ⟨hF, hmem⟩ := apply_new_prefix_val raw m pos hdisj i hik
    rw [hF]
    exact (index_of_subst_combined raw m pos hnodup _ hmem).1

/-- C10: for a well-formed input (one grad marker, nodup inputs, marker
out-arity matching its in-arity, marker outputs not global inputs), both
returned index lists are strictly increasing, every index is below the
number of the original program's input variables, and the combined
program has exactly `numGradVars` further (accumulator) input slots
beyond those — so neither list ever points at a trailing accumulator
slot. -/
theorem invar_indices_strictly_increasing (raw : ClosedJaxpr)
    (num_micro_batches : Nat) (m : JEqn) (pos : Nat)
    (hfind : find_grad_marker raw.jaxpr.eqns 0 = some (m, pos))
    (hnodup : raw.jaxpr.invars.Nodup)
    (harity : (in_grad_vars m).length = num_grads m)
    (hdisj : ∀ v ∈ in_grad_vars m, v ∉ raw.jaxpr.invars) :
    List.Sorted (· < ·) (accumulate_grad_invar_indices raw m pos) ∧
      List.Sorted (· < ·) (apply_grad_invar_indices raw m pos) ∧
      (∀ i ∈ accumulate_grad_invar_indices raw m pos,
        i < raw.jaxpr.invars.length) ∧
      (∀ i ∈ apply_grad_invar_indices raw m pos,
        i < raw.jaxpr.invars.length) ∧
      (combined_jaxpr raw m pos num_micro_batches).jaxpr.invars.length =
        raw.jaxpr.invars.length + num_grads m := by
  clear hfind
  rcases Nat.eq_zero_or_pos (num_grads m) with h0 | h0
  · have ha : accumulate_grad_invar_indices raw m pos = [] := by
      rw [accumulate_grad_invar_indices, h0, py_drop_last_zero]
      rfl
    have hb : apply_grad_invar_indices raw m pos = [] := by
      rw [apply_grad_invar_indices, h0, py_drop_last_zero]
      rfl
    rw [ha, hb]
    exact ⟨List.sorted_nil, List.sorted_nil, by simp, by simp,
      combined_invars_length raw m pos⟩
  · have hacc := acc_indices_eq raw m pos hnodup h0
    have happ := apply_indices_eq raw m pos hnodup h0 harity hdisj
    have hacc_filter : acc_used_invars raw pos =
        raw.jaxpr.invars.filter
          (fun v => decide (v ∈ used_vars_of (compute_grad_eqns raw pos))) :=
      rfl
    have happ_filter : apply_used_invars raw pos =
        raw.jaxpr.invars.filter
          (fun v => decide (v ∈ used_vars_of (apply_grad_eqns raw pos))) :=
      rfl
    refine ⟨?_, ?_, ?_, ?_, combined_invars_length raw m pos⟩
    · rw [hacc, hacc_filter]
      exact sorted_filter_index raw.jaxpr.invars _ hnodup
    · rw [happ, happ_filter]
      exact sorted_filter_index raw.jaxpr.invars _ hnodup
    · rw [hacc, hacc_filter]
      exact filter_index_lt raw.jaxpr.invars _
    · rw [happ, happ_filter]
      exact filter_index_lt raw.jaxpr.invars _

theorem invar_indices_strictly_increasing_witness :
    find_grad_marker Ex.P1.jaxpr.eqns 0 = some (Ex.eMark, 2) ∧
      Ex.P1.jaxpr.invars.Nodup ∧
      (in_grad_vars Ex.eMark).length = num_grads Ex.eMark ∧
      (∀ v ∈ in_grad_vars Ex.eMark, v ∉ Ex.P1.jaxpr.invars) ∧
      (combined_jaxpr Ex.P1 Ex.eMark 2 4).jaxpr.invars.length =
        Ex.P1.jaxpr.invars.length + num_grads Ex.eMark :=
  ⟨by decide, by decide, by decide, by decide,
    (invar_indices_strictly_increasing Ex.P1 4 Ex.eMark 2 (by decide)
      (by decide) (by decide) (by decide)).2.2.2.2⟩

/-- C4: the two returned index lists are the positions, within the
combined program's input list, of the renamed region-input variables
minus their trailing `numGradVars` accumulator slots (`list_index` is
first-occurrence position, and under well-formedness each listed index
really is the position where that renamed variable sits).  In the
spec's concrete scenario — inputs `(o, p, x)`, one grad marker with one
gradient, `M = 4` — the combined program has 4 inputs, 2 renamed
outputs, and `accumulateGradInputIndices = [0, 1, 2]`. -/
theorem invar_index_positions (raw : ClosedJaxpr) (num_micro_batches : Nat)
    (m : JEqn) (pos : Nat)
    (hfind : find_grad_marker raw.jaxpr.eqns 0 = some (m, pos))
    (hnodup : raw.jaxpr.invars.Nodup)
    (hdisj : ∀ v ∈ in_grad_vars m, v ∉ raw.jaxpr.invars) :
    accumulate_grad_invar_indices raw m pos =
      (py_drop_last (acc_new_invars raw m pos) (num_grads m)).map
        (list_index (combined_invars raw m pos)) ∧
      apply_grad_invar_indices raw m pos =
        (py_drop_last (apply_new_invars raw m pos) (num_grads m)).map
          (list_index (combined_invars raw m pos)) ∧
      (∀ v ∈ py_drop_last (acc_new_invars raw m pos) (num_grads m),
        (combined_invars raw m pos).getD
          (list_index (combined_invars raw m pos) v) default = v) ∧
      (combined_jaxpr Ex.P1 Ex.eMark 2 4).jaxpr.invars.length = 4 ∧
      (combined_jaxpr Ex.P1 Ex.eMark 2 4).jaxpr.outvars.length = 2 ∧
      (combined_jaxpr Ex.P1 Ex.eMark 2 4).jaxpr.outvars =
        new_outvars Ex.P1 Ex.eMark 2 ∧
      (new_outvars Ex.P1 Ex.eMark 2).map Var.aval =
        Ex.P1.jaxpr.outvars.map Var.aval ∧
      accumulate_grad_invar_indices Ex.P1 Ex.eMark 2 = [0, 1, 2] ∧
      add_gradient_accumulation Ex.P1 4 =
        some (combined_jaxpr Ex.P1 Ex.eMark 2 4, [0, 1, 2], [0, 1], 1) := by
  clear hfind hdisj
  refine ⟨rfl, rfl, ?_, by decide, by decide, by decide, by decide, by decide,
    by decide⟩
  intro v hv
  rcases Nat.eq_zero_or_pos (num_grads m) with h0 | h0
  · rw [h0, py_drop_last_zero] at hv
    simp at hv
  · rw [py_drop_last_of_pos _ _ (by omega)] at hv
    have hlen1 : (acc_new_invars raw m pos).length =
        (acc_used_invars raw pos).length + num_grads m := by
      rw [acc_new_invars_length, acc_old_invars_length]
    have hk : (acc_new_invars raw m pos).length - num_grads m =
        (acc_used_invars raw pos).length := by omega
    rw [hk] at hv
    obtain ⟨i, hi, hgv⟩ := List.getElem_of_mem hv
    have hik : i < (acc_used_invars raw pos).length := by
      simp only [List.length_take] at hi
      omega
    have hvd : v = (acc_new_invars raw m pos).getD i default := by
      rw [← hgv, List.getD_eq_getElem _ _ (by omega)]
      exact List.getElem_take _
    obtain ⟨hF, hmem⟩ := acc_new_prefix_val raw m pos hnodup i hik
    obtain ⟨hidx, hat⟩ := index_of_subst_combined raw m pos hnodup _ hmem
    rw [hvd, hF, hidx, hat]

theorem invar_index_positions_witness :
    find_grad_marker Ex.P1.jaxpr.eqns 0 = some (Ex.eMark, 2) ∧
      Ex.P1.jaxpr.invars.Nodup ∧
      (∀ v ∈ in_grad_vars Ex.eMark, v ∉ Ex.P1.jaxpr.invars) ∧
      accumulate_grad_invar_indices Ex.P1 Ex.eMark 2 = [0, 1, 2] :=
  ⟨by decide, by decide, by decide,
    (invar_index_positions Ex.P1 4 Ex.eMark 2 (by decide) (by decide)
      (by decide)).2.2.2.2.2.2.2.1⟩

/-! ### Numerical semantics and the microbatched driver loop

The evaluation semantics of jaxpr equations and the driver that runs the
two sliced sub-programs live outside `src/` (jax's evaluator,
`GradAccMeshDriverExecutable`); they are modelled here from the spec.
Values are exact rationals standing in for the floating-point tensors. -/

/-- Modelled from the spec: an evaluation environment assigning a (here:
rational, standing in for floating point) value to every variable. -/
abbrev Env : Type := Var → ℚ

/-- Modelled from the spec: the semantics of the primitives the rewriter
does not interpret itself — a black box mapping tag, parameters and input
values to output values. -/
abbrev PrimSem : Type := Nat → Params → List ℚ → List ℚ

def envSet (env : Env) (v : Var) (q : ℚ) : Env :=
  fun w => if w = v then q else env w

def envSetList : Env → List Var → List ℚ → Env
  | env, [], _ => env
  | env, _ :: _, [] => env
  | env, v :: vs, q :: qs => envSetList (envSet env v q) vs qs

def evalAtom (env : Env) : Atom → ℚ
  | Atom.var v => env v
  | Atom.lit l => (l.val : ℚ)

/-- Modelled from the spec: one equation updates its output variables —
`add_p` adds its two inputs, `div_p` divides, a pipeline marker forwards
its inputs to its outputs unchanged, and any other primitive applies the
ambient black-box semantics. -/
def evalEqn (sem : PrimSem) (env : Env) (e : JEqn) : Env :=
  match e.primitive with
  | Primitive.add_p =>
    envSetList env e.outvars
      [evalAtom env (e.invars.getD 0 default) +
        evalAtom env (e.invars.getD 1 default)]
  | Primitive.div_p =>
    envSetList env e.outvars
      [evalAtom env (e.invars.getD 0 default) /
        evalAtom env (e.invars.getD 1 default)]
  | Primitive.pipeline_p => envSetList env e.outvars (e.invars.map (evalAtom env))
  | Primitive.other t =>
    envSetList env e.outvars (sem t e.params (e.invars.map (evalAtom env)))

def runEqns (sem : PrimSem) (eqns : List JEqn) (env : Env) : Env :=
  eqns.foldl (evalEqn sem) env

/-- The slice of the combined program between the accumulate-grad start
and end markers (inclusive), exactly as the rewriter lays it out. -/
def acc_region_eqns (raw : ClosedJaxpr) (m : JEqn) (pos : Nat) : List JEqn :=
  start_acc_eqn raw m pos ::
    (compute_grad_eqns raw pos ++ add_eqns raw m ++ [end_acc_eqn raw m pos])

/-- The slice of the combined program between the apply-grad start and
end markers (inclusive). -/
def apply_region_eqns (raw : ClosedJaxpr) (m : JEqn)
    (pos num_micro_batches : Nat) : List JEqn :=
  start_apply_eqn raw m pos ::
    (div_eqns raw m pos num_micro_batches ++ apply_grad_eqns raw pos ++
      [end_apply_eqn raw m pos])

/-- The accumulator input slots of the accumulate-grad sub-program: the
trailing `numGradVars` entries of its renamed input list. -/
def acc_slot_vars (raw : ClosedJaxpr) (m : JEqn) (pos : Nat) : List Var :=
  (acc_new_invars raw m pos).drop
    ((acc_new_invars raw m pos).length - num_grads m)

/-- The gradient input slots of the apply-grad sub-program. -/
def apply_slot_vars (raw : ClosedJaxpr) (m : JEqn) (pos : Nat) : List Var :=
  (apply_new_invars raw m pos).drop
    ((apply_new_invars raw m pos).length - num_grads m)

/-- The gradient one microbatch contributes: run the compute-grad
operations of the original program on that microbatch's environment and
read the boundary marker's inputs. -/
def micro_grad (sem : PrimSem) (raw : ClosedJaxpr) (m : JEqn) (pos : Nat)
    (env0 : Env) : List ℚ :=
  (out_grad_vars m).map (evalAtom (runEqns sem (compute_grad_eqns raw pos) env0))

/-- Transport a microbatch environment over the original variables to the
renamed inputs of the accumulate-grad sub-program: each renamed input
receives the value its original carries. -/
def pull_env (raw : ClosedJaxpr) (m : JEqn) (pos : Nat) (env0 : Env) : Env :=
  envSetList env0 (acc_new_invars raw m pos)
    ((acc_old_invars raw m pos).map env0)

/-- Modelled from the spec: the driver runs the accumulate-grad region
once per microbatch, threading the accumulator through its trailing input
slots and reading it back from `interGradVars`. -/
def driver_acc_loop (sem : PrimSem) (raw : ClosedJaxpr) (m : JEqn)
    (pos : Nat) : List Env → List ℚ → List ℚ
  | [], acc => acc
  | env :: rest, acc =>
    driver_acc_loop sem raw m pos rest
      ((inter_grad_vars raw m pos).map
        (runEqns sem (acc_region_eqns raw m pos)
          (envSetList env (acc_slot_vars raw m pos) acc)))

/-- Modelled from the spec: the whole driver contract — accumulator
initialized to zero, the accumulate-grad region once per microbatch, then
the apply-grad region once with the final accumulator fed into its
gradient slots. -/
def driver_run (sem : PrimSem) (raw : ClosedJaxpr) (m : JEqn)
    (pos num_micro_batches : Nat) (envs : List Env) (apply_env : Env) : Env :=
  runEqns sem (apply_region_eqns raw m pos num_micro_batches)
    (envSetList apply_env (apply_slot_vars raw m pos)
      (driver_acc_loop sem raw m pos envs
        (List.replicate (num_grads m) 0)))

/-! ### Environment lemmas -/

theorem getD_append_right {α : Type} [Inhabited α] (l₁ l₂ : List α) (i : Nat)
    (hi : i < l₂.length) :
    (l₁ ++ l₂).getD (l₁.length + i) default = l₂.getD i default := by
  rw [List.getD_eq_getElem _ default (by simp; omega),
    List.getD_eq_getElem _ default hi]
  rw [List.getElem_append_right (by omega)]
  congr 1
  omega

theorem envSet_self (env : Env) (v : Var) (q : ℚ) : envSet env v q v = q :=
  if_pos rfl

theorem envSet_ne (env : Env) (v : Var) (q : ℚ) (w : Var) (h : w ≠ v) :
    envSet env v q w = env w :=
  if_neg h

theorem envSetList_not_mem (env : Env) (vs : List Var) (qs : List ℚ) (w : Var)
    (hw : w ∉ vs) : envSetList env vs qs w = env w := by
  induction vs generalizing env qs with
  | nil => rfl
  | cons v vs' ih =>
    rw [List.mem_cons] at hw
    push_neg at hw
    cases qs with
    | nil => rfl
    | cons q qs' =>
      show envSetList (envSet env v q) vs' qs' w = env w
      rw [ih _ _ hw.2, envSet_ne env v q w hw.1]

theorem envSetList_getD (env : Env) (vs : List Var) (qs : List ℚ) (k : Nat)
    (hnd : vs.Nodup) (hk : k < vs.length) (hq : k < qs.length) :
    envSetList env vs qs (vs.getD k default) = qs.getD k default := by
  induction vs generalizing env qs k with
  | nil => simp at hk
  | cons v vs' ih =>
    cases qs with
    | nil => simp at hq
    | cons q qs' =>
      rcases List.nodup_cons.mp hnd with ⟨hv, hnd'⟩
      cases k with
      | zero =>
        show envSetList (envSet env v q) vs' qs' v = q
        rw [envSetList_not_mem _ _ _ _ hv, envSet_self]
      | succ k' =>
        show envSetList (envSet env v q) vs' qs' (vs'.getD k' default) =
          qs'.getD k' default
        exact ih _ _ _ hnd' (by simpa using hk) (by simpa using hq)

theorem evalEqn_not_written (sem : PrimSem) (env : Env) (e : JEqn) (w : Var)
    (hw : w ∉ e.outvars) : evalEqn sem env e w = env w := by
  obtain ⟨ins, outs, prim, ps⟩ := e
  cases prim <;> exact envSetList_not_mem _ _ _ _ hw

theorem runEqns_cons (sem : PrimSem) (e : JEqn) (es : List JEqn) (env : Env) :
    runEqns sem (e :: es) env = runEqns sem es (evalEqn sem env e) := rfl

theorem runEqns_append (sem : PrimSem) (l₁ l₂ : List JEqn) (env : Env) :
    runEqns sem (l₁ ++ l₂) env = runEqns sem l₂ (runEqns sem l₁ env) := by
  rw [runEqns, List.foldl_append]
  rfl

theorem runEqns_not_written (sem : PrimSem) (eqns : List JEqn) (env : Env)
    (w : Var) (hw : ∀ e ∈ eqns, w ∉ e.outvars) :
    runEqns sem eqns env w = env w := by
  induction eqns generalizing env with
  | nil => rfl
  | cons e es ih =>
    rw [runEqns_cons, ih _ (fun f hf => hw f (List.mem_cons_of_mem e hf)),
      evalEqn_not_written sem env e w (hw e (List.mem_cons_self e es))]

/-- Two environments agreeing on every variable with id below `b`. -/
def EnvAgree (b : Nat) (env₁ env₂ : Env) : Prop :=
  ∀ w : Var, w.id < b → env₁ w = env₂ w

theorem evalAtom_agree (b : Nat) (env₁ env₂ : Env) (h : EnvAgree b env₁ env₂)
    (a : Atom) (ha : ∀ v ∈ atomVars a, v.id < b) :
    evalAtom env₁ a = evalAtom env₂ a := by
  cases a with
  | var v => exact h v (ha v (by simp [atomVars]))
  | lit l => rfl

theorem envSetList_agree (b : Nat) (env₁ env₂ : Env)
    (h : EnvAgree b env₁ env₂) (vs : List Var) (qs : List ℚ) :
    EnvAgree b (envSetList env₁ vs qs) (envSetList env₂ vs qs) := by
  induction vs generalizing env₁ env₂ qs with
  | nil => exact h
  | cons v vs' ih =>
    cases qs with
    | nil => exact h
    | cons q qs' =>
      show EnvAgree b (envSetList (envSet env₁ v q) vs' qs')
        (envSetList (envSet env₂ v q) vs' qs')
      apply ih
      intro w hwb
      by_cases hwv : w = v
      · rw [hwv, envSet_self, envSet_self]
      · rw [envSet_ne _ _ _ _ hwv, envSet_ne _ _ _ _ hwv]
        exact h w hwb

theorem evalEqn_agree (sem : PrimSem) (b : Nat) (hb : 1 ≤ b)
    (env₁ env₂ : Env) (h : EnvAgree b env₁ env₂) (e : JEqn)
    (he : ∀ v ∈ eqnVars e, v.id < b) :
    EnvAgree b (evalEqn sem env₁ e) (evalEqn sem env₂ e) := by
  have hin : ∀ a ∈ e.invars, evalAtom env₁ a = evalAtom env₂ a := by
    intro a ha
    apply evalAtom_agree b _ _ h
    intro v hv
    apply he
    simp only [eqnVars, List.mem_append, List.mem_flatten, List.mem_map]
    exact Or.inl ⟨atomVars a, ⟨a, ha, rfl⟩, hv⟩
  have hatom : ∀ i, evalAtom env₁ (e.invars.getD i default) =
      evalAtom env₂ (e.invars.getD i default) := by
    intro i
    by_cases hi : i < e.invars.length
    · exact hin _ (getD_mem _ i hi)
    · rw [List.getD_eq_default _ _ (by omega)]
      exact h default (by show 0 < b; omega)
  have hmap : e.invars.map (evalAtom env₁) = e.invars.map (evalAtom env₂) :=
    List.map_congr_left hin
  obtain ⟨ins, outs, prim, ps⟩ := e
  simp only [eqnVars] at he
  cases prim with
  | pipeline_p =>
    show EnvAgree b (envSetList env₁ outs _) (envSetList env₂ outs _)
    rw [show ins.map (evalAtom env₁) = ins.map (evalAtom env₂) from hmap]
    exact envSetList_agree b env₁ env₂ h outs _
  | add_p =>
    show EnvAgree b (envSetList env₁ outs _) (envSetList env₂ outs _)
    rw [hatom 0, hatom 1]
    exact envSetList_agree b env₁ env₂ h outs _
  | div_p =>
    show EnvAgree b (envSetList env₁ outs _) (envSetList env₂ outs _)
    rw [hatom 0, hatom 1]
    exact envSetList_agree b env₁ env₂ h outs _
  | other t =>
    show EnvAgree b (envSetList env₁ outs _) (envSetList env₂ outs _)
    rw [show ins.map (evalAtom env₁) = ins.map (evalAtom env₂) from hmap]
    exact envSetList_agree b env₁ env₂ h outs _

theorem runEqns_agree (sem : PrimSem) (b : Nat) (hb : 1 ≤ b)
    (eqns : List JEqn) (env₁ env₂ : Env) (h : EnvAgree b env₁ env₂)
    (he : ∀ e ∈ eqns, ∀ v ∈ eqnVars e, v.id < b) :
    EnvAgree b (runEqns sem eqns env₁) (runEqns sem eqns env₂) := by
  induction eqns generalizing env₁ env₂ with
  | nil => exact h
  | cons e es ih =>
    rw [runEqns_cons, runEqns_cons]
    exact ih _ _
      (evalEqn_agree sem b hb env₁ env₂ h e (he e (List.mem_cons_self e es)))
      (fun f hf => he f (List.mem_cons_of_mem e hf))

theorem evalEqn_pipeline (sem : PrimSem) (env : Env) (ins outs : List Var)
    (p : Params) :
    evalEqn sem env ⟨ins.map Atom.var, outs, Primitive.pipeline_p, p⟩ =
      envSetList env outs (ins.map env) := by
  show envSetList env outs ((ins.map Atom.var).map (evalAtom env)) = _
  rw [List.map_map]
  rfl

theorem getD_drop {α : Type} [Inhabited α] (l : List α) (n j : Nat)
    (h : n + j < l.length) :
    (l.drop n).getD j default = l.getD (n + j) default := by
  rw [List.getD_eq_getElem _ default (by simp; omega),
    List.getD_eq_getElem _ default h]
  exact List.getElem_drop l

theorem acc_slot_vars_length (raw : ClosedJaxpr) (m : JEqn) (pos : Nat) :
    (acc_slot_vars raw m pos).length = num_grads m := by
  rw [acc_slot_vars, List.length_drop, acc_new_invars_length,
    acc_old_invars_length]
  omega

theorem acc_slot_vars_getD (raw : ClosedJaxpr) (m : JEqn) (pos : Nat) (j : Nat)
    (hj : j < num_grads m) :
    (acc_slot_vars raw m pos).getD j default =
      (acc_new_invars raw m pos).getD
        ((acc_used_invars raw pos).length + j) default := by
  have hlen : (acc_new_invars raw m pos).length =
      (acc_used_invars raw pos).length + num_grads m := by
    rw [acc_new_invars_length, acc_old_invars_length]
  rw [acc_slot_vars, getD_drop _ _ _ (by omega)]
  congr 1
  omega

theorem acc_slot_vars_nodup (raw : ClosedJaxpr) (m : JEqn) (pos : Nat) :
    (acc_slot_vars raw m pos).Nodup :=
  (List.drop_sublist _ _).nodup (clone_avals_nodup _ _)

theorem acc_new_getD_id (raw : ClosedJaxpr) (m : JEqn) (pos : Nat) (k : Nat)
    (hk : k < (acc_old_invars raw m pos).length) :
    ((acc_new_invars raw m pos).getD k default).id =
      (new_grad_clone raw m).2 + k := by
  rw [acc_new_invars, acc_new_clone, clone_vars,
    clone_avals_getD _ _ k (by simpa using hk)]

theorem clone_avals_drop (avs : List Aval) (c n : Nat) :
    (clone_avals avs c).1.drop n = (clone_avals (avs.drop n) (c + n)).1 := by
  induction avs generalizing c n with
  | nil => simp [clone_avals]
  | cons a rest ih =>
    cases n with
    | zero => simp
    | succ n' =>
      show (clone_avals rest (c + 1)).1.drop n' =
        (clone_avals (rest.drop n') (c + (n' + 1))).1
      rw [ih (c + 1) n']
      have harith : c + 1 + n' = c + (n' + 1) := by omega
      rw [harith]

theorem acc_slot_vars_mem_id (raw : ClosedJaxpr) (m : JEqn) (pos : Nat) :
    ∀ v ∈ acc_slot_vars raw m pos,
      (new_grad_clone raw m).2 + (acc_used_invars raw pos).length ≤ v.id := by
  intro v hv
  have hlen : (acc_new_invars raw m pos).length =
      (acc_used_invars raw pos).length + num_grads m := by
    rw [acc_new_invars_length, acc_old_invars_length]
  rw [acc_slot_vars, acc_new_invars, acc_new_clone, clone_vars,
    clone_avals_drop] at hv
  have hb := (clone_avals_id_bounds _ _ v hv).1
  have hlen2 : (clone_avals ((acc_old_invars raw m pos).map Var.aval)
      (new_grad_clone raw m).2).1.length = (acc_old_invars raw m pos).length := by
    rw [clone_avals_length, List.length_map]
  have hlen3 := acc_old_invars_length raw m pos
  omega

theorem old_grad_getD_id (raw : ClosedJaxpr) (m : JEqn) (i : Nat)
    (hi : i < num_grads m) :
    ((old_grad_vars raw m).getD i default).id = seed0 raw + i := by
  rw [old_grad_vars, old_grad_clone,
    clone_avals_getD _ _ i (by simpa [num_grads] using hi)]

theorem new_grad_getD_id (raw : ClosedJaxpr) (m : JEqn) (i : Nat)
    (hi : i < num_grads m) :
    ((new_grad_vars raw m).getD i default).id =
      seed0 raw + num_grads m + i := by
  rw [new_grad_vars, new_grad_clone,
    clone_avals_getD _ _ i (by simpa [num_grads] using hi), old_grad_clone_snd]

theorem out_grad_atom_vars_lt (raw : ClosedJaxpr) (m : JEqn)
    (hm : m ∈ raw.jaxpr.eqns) (j : Nat) (hj : j < num_grads m) :
    ∀ v ∈ atomVars ((out_grad_vars m).getD j default), v.id < seed0 raw := by
  intro v hv
  have hmem : (out_grad_vars m).getD j default ∈ m.invars :=
    getD_mem _ j hj
  cases hg : (out_grad_vars m).getD j default with
  | lit l =>
    rw [hg] at hv
    simp [atomVars] at hv
  | var w =>
    rw [hg] at hv hmem
    simp only [atomVars, List.mem_singleton] at hv
    subst hv
    exact jaxprVars_id_lt_seed _ _
      (eqn_invars_subset_jaxprVars raw.jaxpr m hm v hmem)

theorem evalEqn_start_acc (sem : PrimSem) (env : Env) (raw : ClosedJaxpr)
    (m : JEqn) (pos : Nat) :
    evalEqn sem env (start_acc_eqn raw m pos) =
      envSetList env (acc_old_invars raw m pos)
        ((acc_new_invars raw m pos).map env) := by
  rw [start_acc_eqn]
  exact evalEqn_pipeline sem env _ _ _

theorem evalEqn_end_acc (sem : PrimSem) (env : Env) (raw : ClosedJaxpr)
    (m : JEqn) (pos : Nat) :
    evalEqn sem env (end_acc_eqn raw m pos) =
      envSetList env (inter_grad_vars raw m pos)
        ((new_grad_vars raw m).map env) := by
  rw [end_acc_eqn]
  exact evalEqn_pipeline sem env _ _ _

theorem evalEqn_add_eqn (sem : PrimSem) (env : Env) (raw : ClosedJaxpr)
    (m : JEqn) (i : Nat) :
    evalEqn sem env (add_eqn raw m i) =
      envSetList env [(new_grad_vars raw m).getD i default]
        [env ((old_grad_vars raw m).getD i default) +
          evalAtom env ((out_grad_vars m).getD i default)] := rfl

theorem envSetList_single (env : Env) (v : Var) (q : ℚ) :
    envSetList env [v] [q] v = q :=
  envSet_self env v q

theorem add_eqns_mem_shape (raw : ClosedJaxpr) (m : JEqn) (e : JEqn)
    (he : e ∈ add_eqns raw m) :
    ∃ i, i < num_grads m ∧ e = add_eqn raw m i := by
  rw [add_eqns] at he
  obtain ⟨i, hi, rfl⟩ := List.mem_map.mp he
  exact ⟨i, List.mem_range.mp hi, rfl⟩

theorem inter_grad_vars_nodup (raw : ClosedJaxpr) (m : JEqn) (pos : Nat) :
    (inter_grad_vars raw m pos).Nodup := by
  rw [inter_grad_vars, inter_clone]
  exact clone_avals_nodup _ _

theorem acc_old_getD_right (raw : ClosedJaxpr) (m : JEqn) (pos : Nat)
    (k : Nat) (h1 : (acc_used_invars raw pos).length ≤ k)
    (h2 : k < (acc_old_invars raw m pos).length) :
    (acc_old_invars raw m pos).getD k default =
      (old_grad_vars raw m).getD
        (k - (acc_used_invars raw pos).length) default := by
  have hogl := old_grad_vars_length raw m
  have hlen_old := acc_old_invars_length raw m pos
  have hk2 : k = (acc_used_invars raw pos).length +
      (k - (acc_used_invars raw pos).length) := by omega
  rw [acc_old_invars]
  conv_lhs => rw [hk2]
  exact getD_append_right _ _ _ (by omega)

theorem eqn_vars_subset_jaxprVars (j : Jaxpr) (e : JEqn) (he : e ∈ j.eqns) :
    ∀ v ∈ eqnVars e, v ∈ jaxprVars j := by
  intro v hv
  simp only [jaxprVars, List.mem_append, List.mem_flatten, List.mem_map]
  right
  exact ⟨eqnVars e, ⟨e, he, rfl⟩, hv⟩

/-- After the accumulate-grad start marker runs on the transported
environment, every original (pre-seed) variable carries the value the
microbatch environment gives it. -/
theorem start_acc_agree (sem : PrimSem) (raw : ClosedJaxpr) (m : JEqn)
    (pos : Nat) (hnodup : raw.jaxpr.invars.Nodup) (env0 : Env)
    (acc : List ℚ) :
    EnvAgree (seed0 raw)
      (evalEqn sem
        (envSetList (pull_env raw m pos env0) (acc_slot_vars raw m pos) acc)
        (start_acc_eqn raw m pos))
      env0 := by
  intro w hw
  rw [evalEqn_start_acc]
  have hnd_old := acc_old_invars_nodup raw m pos hnodup
  have hnd_new : (acc_new_invars raw m pos).Nodup := clone_avals_nodup _ _
  have hlen_noa := acc_new_invars_length raw m pos
  have hlen_old := acc_old_invars_length raw m pos
  have hogl := old_grad_vars_length raw m
  have hngc := new_grad_clone_snd raw m
  by_cases hmem : w ∈ acc_old_invars raw m pos
  · have hk := list_index_lt_length _ _ hmem
    have hgd := getD_list_index _ _ hmem
    have hkused : list_index (acc_old_invars raw m pos) w <
        (acc_used_invars raw pos).length := by
      by_contra hge
      push_neg at hge
      rw [acc_old_getD_right raw m pos _ hge hk] at hgd
      have hid := old_grad_getD_id raw m
        (list_index (acc_old_invars raw m pos) w -
          (acc_used_invars raw pos).length) (by omega)
      rw [hgd] at hid
      omega
    rw [← hgd]
    rw [envSetList_getD _ _ _ _ hnd_old hk (by rw [List.length_map]; omega)]
    rw [getD_map_lt _ _ _ (by omega)]
    have hq1 : (acc_new_invars raw m pos).getD
        (list_index (acc_old_invars raw m pos) w) default ∉
        acc_slot_vars raw m pos := by
      intro hs
      have h1 := acc_slot_vars_mem_id raw m pos _ hs
      have h2 := acc_new_getD_id raw m pos
        (list_index (acc_old_invars raw m pos) w) hk
      omega
    rw [envSetList_not_mem _ _ _ _ hq1]
    rw [pull_env]
    rw [envSetList_getD _ _ _ _ hnd_new (by omega) (by rw [List.length_map]; omega)]
    rw [getD_map_lt _ _ _ (by omega)]
  · rw [envSetList_not_mem _ _ _ _ hmem]
    have hw_new : w ∉ acc_new_invars raw m pos := by
      intro hs
      have := (acc_new_invars_bounds raw m pos w hs).1
      omega
    have hw_slot : w ∉ acc_slot_vars raw m pos := by
      intro hs
      rw [acc_slot_vars] at hs
      exact hw_new (List.drop_subset _ _ hs)
    rw [envSetList_not_mem _ _ _ _ hw_slot, pull_env,
      envSetList_not_mem _ _ _ _ hw_new]

/-- After the accumulate-grad start marker runs, the `oldGradVars` carry
the threaded accumulator values. -/
theorem start_acc_old_grad (sem : PrimSem) (raw : ClosedJaxpr) (m : JEqn)
    (pos : Nat) (hnodup : raw.jaxpr.invars.Nodup) (env0 : Env)
    (acc : List ℚ) (hacc : acc.length = num_grads m) (i : Nat)
    (hi : i < num_grads m) :
    (evalEqn sem
        (envSetList (pull_env raw m pos env0) (acc_slot_vars raw m pos) acc)
        (start_acc_eqn raw m pos))
      ((old_grad_vars raw m).getD i default) = acc.getD i default := by
  rw [evalEqn_start_acc]
  have hlen_old := acc_old_invars_length raw m pos
  have hlen_noa := acc_new_invars_length raw m pos
  have hogl := old_grad_vars_length raw m
  have hgd : (acc_old_invars raw m pos).getD
      ((acc_used_invars raw pos).length + i) default =
      (old_grad_vars raw m).getD i default := by
    rw [acc_old_invars]
    exact getD_append_right _ _ i (by omega)
  rw [← hgd,
    envSetList_getD _ _ _ _ (acc_old_invars_nodup raw m pos hnodup)
      (by omega) (by rw [List.length_map]; omega),
    getD_map_lt _ _ _ (by omega)]
  rw [← acc_slot_vars_getD raw m pos i hi]
  rw [envSetList_getD _ _ _ _ (acc_slot_vars_nodup raw m pos)
    (by rw [acc_slot_vars_length]; omega) (by omega)]

/-- One iteration of the accumulate-grad region: reading `interGradVars`
after running the region slice on the transported microbatch environment,
with the accumulator threaded into the trailing slots, yields the old
accumulator plus this microbatch's gradient. -/
theorem acc_region_step (sem : PrimSem) (raw : ClosedJaxpr) (m : JEqn)
    (pos : Nat) (hm : m ∈ raw.jaxpr.eqns)
    (hnodup : raw.jaxpr.invars.Nodup) (hb : 1 ≤ seed0 raw) (env0 : Env)
    (acc : List ℚ) (hacc : acc.length = num_grads m) (j : Nat)
    (hj : j < num_grads m) :
    ((inter_grad_vars raw m pos).map
        (runEqns sem (acc_region_eqns raw m pos)
          (envSetList (pull_env raw m pos env0) (acc_slot_vars raw m pos)
            acc))).getD j default =
      acc.getD j default + (micro_grad sem raw m pos env0).getD j default := by
  have hintl := inter_grad_vars_length raw m pos
  rw [getD_map_lt _ _ j (by omega)]
  have hrun : runEqns sem (acc_region_eqns raw m pos)
      (envSetList (pull_env raw m pos env0) (acc_slot_vars raw m pos) acc) =
      evalEqn sem
        (runEqns sem (add_eqns raw m)
          (runEqns sem (compute_grad_eqns raw pos)
            (evalEqn sem
              (envSetList (pull_env raw m pos env0)
                (acc_slot_vars raw m pos) acc)
              (start_acc_eqn raw m pos))))
        (end_acc_eqn raw m pos) := by
    rw [acc_region_eqns, runEqns_cons, runEqns_append, runEqns_append]
    rfl
  rw [hrun, evalEqn_end_acc]
  rw [envSetList_getD _ _ _ _ (inter_grad_vars_nodup raw m pos) (by omega)
    (by rw [List.length_map, new_grad_vars_length]; omega)]
  rw [getD_map_lt _ _ j (by rw [new_grad_vars_length]; omega)]
  set env₁ := evalEqn sem
    (envSetList (pull_env raw m pos env0) (acc_slot_vars raw m pos) acc)
    (start_acc_eqn raw m pos) with henv₁
  set env₂ := runEqns sem (compute_grad_eqns raw pos) env₁ with henv₂
  have hagree₁ : EnvAgree (seed0 raw) env₁ env0 := by
    rw [henv₁]
    exact start_acc_agree sem raw m pos hnodup env0 acc
  have hcomp_vars : ∀ e ∈ compute_grad_eqns raw pos, ∀ v ∈ eqnVars e,
      v.id < seed0 raw := by
    intro e he v hv
    exact jaxprVars_id_lt_seed _ _ (eqn_vars_subset_jaxprVars raw.jaxpr e
      (List.take_subset _ _ he) v hv)
  have hagree₂ : EnvAgree (seed0 raw) env₂
      (runEqns sem (compute_grad_eqns raw pos) env0) := by
    rw [henv₂]
    exact runEqns_agree sem _ hb _ _ _ hagree₁ hcomp_vars
  have hold₂ : ∀ i, i < num_grads m →
      env₂ ((old_grad_vars raw m).getD i default) = acc.getD i default := by
    intro i hi
    rw [henv₂, runEqns_not_written sem _ _ _ ?_]
    · rw [henv₁]
      exact start_acc_old_grad sem raw m pos hnodup env0 acc hacc i hi
    · intro e he hmem'
      have hoid := old_grad_getD_id raw m i hi
      have hjv : (old_grad_vars raw m).getD i default ∈ jaxprVars raw.jaxpr :=
        eqn_outvars_subset_jaxprVars raw.jaxpr e (List.take_subset _ _ he) _
          hmem'
      have hlt := jaxprVars_id_lt_seed raw.jaxpr _ hjv
      have hseed : gensym_seed raw.jaxpr = seed0 raw := rfl
      omega
  have hlen_adds : (add_eqns raw m).length = num_grads m := by simp [add_eqns]
  have hadds : (runEqns sem (add_eqns raw m) env₂)
      ((new_grad_vars raw m).getD j default) =
      acc.getD j default + evalAtom env₂ ((out_grad_vars m).getD j default) := by
    have hdecomp : add_eqns raw m =
        (add_eqns raw m).take j ++
          (add_eqn raw m j :: (add_eqns raw m).drop (j + 1)) := by
      conv_lhs => rw [← List.take_append_drop j (add_eqns raw m)]
      congr 1
      rw [List.drop_eq_getElem_cons (by omega)]
      congr 1
      rw [← List.getD_eq_getElem _ default (by omega), add_eqns,
        getD_map_range _ _ _ hj]
    have htakew : ∀ (w : Var), w.id < seed0 raw + num_grads m →
        runEqns sem ((add_eqns raw m).take j) env₂ w = env₂ w := by
      intro w hwid
      apply runEqns_not_written
      intro e he hmem'
      obtain ⟨i', hi', rfl⟩ :=
        add_eqns_mem_shape raw m e (List.take_subset _ _ he)
      have hmm := List.mem_singleton.mp hmem'
      have hid2 := new_grad_getD_id raw m i' hi'
      rw [hmm] at hwid
      omega
    rw [hdecomp, runEqns_append, runEqns_cons]
    rw [runEqns_not_written sem _ _ _ ?_]
    · rw [evalEqn_add_eqn, envSetList_single]
      congr 1
      · rw [htakew _ (by rw [old_grad_getD_id raw m j hj]; omega)]
        exact hold₂ j hj
      · cases hg : (out_grad_vars m).getD j default with
        | lit l => rfl
        | var w =>
          show runEqns sem ((add_eqns raw m).take j) env₂ w = env₂ w
          apply htakew
          have hvv := out_grad_atom_vars_lt raw m hm j hj w
            (by rw [hg]; simp [atomVars])
          omega
    · intro e he hmem'
      obtain ⟨t, ht, hte⟩ := List.getElem_of_mem he
      rw [List.getElem_drop] at hte
      rw [List.length_drop] at ht
      have htlen : j + 1 + t < (add_eqns raw m).length := by omega
      have hshape : (add_eqns raw m)[j + 1 + t] = add_eqn raw m (j + 1 + t) := by
        rw [← List.getD_eq_getElem _ default htlen, add_eqns,
          getD_map_range _ _ _ (by rw [hlen_adds] at htlen; exact htlen)]
      rw [hshape] at hte
      rw [← hte] at hmem'
      have hmm := List.mem_singleton.mp hmem'
      have hid1 := new_grad_getD_id raw m j hj
      have hid2 := new_grad_getD_id raw m (j + 1 + t)
        (by rw [hlen_adds] at htlen; exact htlen)
      rw [hmm] at hid1
      omega
  rw [hadds]
  congr 1
  rw [micro_grad, getD_map_lt _ _ j hj]
  exact evalAtom_agree _ _ _ hagree₂ _ (out_grad_atom_vars_lt raw m hm j hj)

theorem driver_acc_loop_length (sem : PrimSem) (raw : ClosedJaxpr) (m : JEqn)
    (pos : Nat) (envs : List Env) (acc : List ℚ)
    (hacc : acc.length = num_grads m) :
    (driver_acc_loop sem raw m pos envs acc).length = num_grads m := by
  induction envs generalizing acc with
  | nil => exact hacc
  | cons e rest ih =>
    show (driver_acc_loop sem raw m pos rest _).length = num_grads m
    exact ih _ (by rw [List.length_map, inter_grad_vars_length])

/-- The accumulate loop computes, slot-wise, the running sum of the
per-microbatch gradients. -/
theorem driver_acc_loop_getD (sem : PrimSem) (raw : ClosedJaxpr) (m : JEqn)
    (pos : Nat) (hm : m ∈ raw.jaxpr.eqns) (hnodup : raw.jaxpr.invars.Nodup)
    (hb : 1 ≤ seed0 raw) (envs : List Env) (acc : List ℚ)
    (hacc : acc.length = num_grads m) (j : Nat) (hj : j < num_grads m) :
    (driver_acc_loop sem raw m pos (envs.map (pull_env raw m pos)) acc).getD
        j default =
      acc.getD j default +
        (envs.map
          (fun e => (micro_grad sem raw m pos e).getD j default)).sum := by
  induction envs generalizing acc with
  | nil => simp [driver_acc_loop]
  | cons e rest ih =>
    rw [List.map_cons]
    show (driver_acc_loop sem raw m pos (rest.map (pull_env raw m pos))
      ((inter_grad_vars raw m pos).map
        (runEqns sem (acc_region_eqns raw m pos)
          (envSetList (pull_env raw m pos e) (acc_slot_vars raw m pos)
            acc)))).getD j default = _
    rw [ih _ (by rw [List.length_map, inter_grad_vars_length])]
    rw [acc_region_step sem raw m pos hm hnodup hb e acc hacc j hj]
    rw [List.map_cons, List.sum_cons]
    ring

theorem map_index_getD (igl itl : List Var) (hnd : igl.Nodup)
    (hlen : igl.length = itl.length) :
    igl.map (fun v => itl.getD (list_index igl v) default) = itl := by
  apply list_ext_getD
  · rw [List.length_map, hlen]
  · intro i hi
    have hii : i < igl.length := by simpa using hi
    rw [getD_map_lt _ _ i hii, list_index_getD_of_nodup igl hnd i hii]

/-- The gradient slots of the apply-grad sub-program are exactly the
`interGradVars` produced by the accumulate-grad region. -/
theorem apply_slot_vars_eq (raw : ClosedJaxpr) (m : JEqn) (pos : Nat)
    (harity : (in_grad_vars m).length = num_grads m)
    (houtnd : (in_grad_vars m).Nodup)
    (hdisj : ∀ v ∈ in_grad_vars m, v ∉ raw.jaxpr.invars) :
    apply_slot_vars raw m pos = inter_grad_vars raw m pos := by
  rw [apply_slot_vars, apply_wrap_decomp raw m pos hdisj]
  have hl2 : ((in_grad_vars m).map
      (fun v => (inter_grad_vars raw m pos).getD
        (list_index (in_grad_vars m) v) default)).length = num_grads m := by
    rw [List.length_map, harity]
  have harith : ((apply_used_invars raw pos).map
        (fun v => dict_get_default (subst2 raw m pos) v) ++
        (in_grad_vars m).map
          (fun v => (inter_grad_vars raw m pos).getD
            (list_index (in_grad_vars m) v) default)).length - num_grads m =
      ((apply_used_invars raw pos).map
        (fun v => dict_get_default (subst2 raw m pos) v)).length := by
    rw [List.length_append, hl2]
    omega
  rw [harith, List.drop_left]
  exact map_index_getD _ _ houtnd
    (by rw [harity, inter_grad_vars_length])

theorem apply_old_invars_nodup (raw : ClosedJaxpr) (m : JEqn) (pos : Nat)
    (hnodup : raw.jaxpr.invars.Nodup) (houtnd : (in_grad_vars m).Nodup)
    (hdisj : ∀ v ∈ in_grad_vars m, v ∉ raw.jaxpr.invars) :
    (apply_old_invars raw m pos).Nodup := by
  rw [apply_old_invars, List.nodup_append]
  refine ⟨filter_used_vars_nodup _ _ hnodup, houtnd, ?_⟩
  intro v hv hv2
  exact hdisj v hv2 (apply_used_subset raw pos v hv)

theorem apply_old_invars_length (raw : ClosedJaxpr) (m : JEqn) (pos : Nat) :
    (apply_old_invars raw m pos).length =
      (apply_used_invars raw pos).length + (in_grad_vars m).length := by
  rw [apply_old_invars, List.length_append]

theorem evalEqn_start_apply (sem : PrimSem) (env : Env) (raw : ClosedJaxpr)
    (m : JEqn) (pos : Nat) :
    evalEqn sem env (start_apply_eqn raw m pos) =
      envSetList env (apply_old_invars raw m pos)
        ((apply_new_invars raw m pos).map env) := by
  rw [start_apply_eqn]
  exact evalEqn_pipeline sem env _ _ _

/-- After the apply-grad start marker runs with the final accumulator fed
into the gradient slots, `inGradVars[j]` carries the j-th accumulator
value. -/
theorem start_apply_in_grad (sem : PrimSem) (raw : ClosedJaxpr) (m : JEqn)
    (pos : Nat) (hnodup : raw.jaxpr.invars.Nodup)
    (harity : (in_grad_vars m).length = num_grads m)
    (houtnd : (in_grad_vars m).Nodup)
    (hdisj : ∀ v ∈ in_grad_vars m, v ∉ raw.jaxpr.invars) (apply_env : Env)
    (accF : List ℚ) (haccF : accF.length = num_grads m) (j : Nat)
    (hj : j < num_grads m) :
    (evalEqn sem (envSetList apply_env (apply_slot_vars raw m pos) accF)
        (start_apply_eqn raw m pos)) ((in_grad_vars m).getD j default) =
      accF.getD j default := by
  rw [evalEqn_start_apply]
  have hnl := apply_new_invars_length raw m pos hdisj
  have hol := apply_old_invars_length raw m pos
  have hgd : (apply_old_invars raw m pos).getD
      ((apply_used_invars raw pos).length + j) default =
      (in_grad_vars m).getD j default := by
    rw [apply_old_invars]
    exact getD_append_right _ _ j (by omega)
  rw [← hgd,
    envSetList_getD _ _ _ _
      (apply_old_invars_nodup raw m pos hnodup houtnd hdisj)
      (by omega) (by rw [List.length_map]; omega),
    getD_map_lt _ _ _ (by omega)]
  have hslotj : (apply_new_invars raw m pos).getD
      ((apply_used_invars raw pos).length + j) default =
      (inter_grad_vars raw m pos).getD j default := by
    rw [apply_wrap_decomp raw m pos hdisj]
    have hmaplen : ((apply_used_invars raw pos).map
        (fun v => dict_get_default (subst2 raw m pos) v)).length =
        (apply_used_invars raw pos).length := List.length_map _ _
    conv_lhs => rw [← hmaplen]
    rw [getD_append_right _ _ j (by rw [List.length_map]; omega)]
    rw [getD_map_lt _ _ j (by omega),
      list_index_getD_of_nodup _ houtnd j (by omega)]
  rw [hslotj, apply_slot_vars_eq raw m pos harity houtnd hdisj]
  rw [envSetList_getD _ _ _ _ (inter_grad_vars_nodup raw m pos)
    (by rw [inter_grad_vars_length]; omega) (by omega)]

theorem div_tmp_eq (raw : ClosedJaxpr) (m : JEqn) (pos : Nat)
    (harity : (in_grad_vars m).length = num_grads m) (i : Nat)
    (hi : i < num_grads m) :
    (apply_old_invars raw m pos).getD
        ((apply_old_invars raw m pos).length - (i + 1)) default =
      (in_grad_vars m).getD (num_grads m - 1 - i) default := by
  have hol := apply_old_invars_length raw m pos
  have harith : (apply_old_invars raw m pos).length - (i + 1) =
      (apply_used_invars raw pos).length + (num_grads m - 1 - i) := by omega
  rw [harith, apply_old_invars, getD_append_right _ _ _ (by omega)]

theorem evalEqn_div_eqn (sem : PrimSem) (env : Env) (l : List Var)
    (M i : Nat) :
    evalEqn sem env (div_eqn l M i) =
      envSetList env [l.getD (l.length - (i + 1)) default]
        [env (l.getD (l.length - (i + 1)) default) / ((M : Int) : ℚ)] := rfl

/-- Running the gradient-reduction divides divides `inGradVars[j]` by the
microbatch count (each slot is divided exactly once, in reverse order). -/
theorem divs_divide (sem : PrimSem) (raw : ClosedJaxpr) (m : JEqn)
    (pos M : Nat) (harity : (in_grad_vars m).length = num_grads m)
    (houtnd : (in_grad_vars m).Nodup) (env_B : Env) (j : Nat)
    (hj : j < num_grads m) :
    (runEqns sem (div_eqns raw m pos M) env_B)
        ((in_grad_vars m).getD j default) =
      env_B ((in_grad_vars m).getD j default) / ((M : Int) : ℚ) := by
  have hlen_divs : (div_eqns raw m pos M).length = num_grads m := by
    simp [div_eqns]
  have hi₀lt : num_grads m - 1 - j < num_grads m := by omega
  have hj_eq : num_grads m - 1 - (num_grads m - 1 - j) = j := by omega
  have htmp : (apply_old_invars raw m pos).getD
      ((apply_old_invars raw m pos).length - ((num_grads m - 1 - j) + 1))
        default = (in_grad_vars m).getD j default := by
    rw [div_tmp_eq raw m pos harity _ hi₀lt, hj_eq]
  have hne : ∀ i', i' < num_grads m → i' ≠ num_grads m - 1 - j →
      (in_grad_vars m).getD (num_grads m - 1 - i') default ≠
        (in_grad_vars m).getD j default := by
    intro i' hi' hnei heq
    have h1 := list_index_getD_of_nodup (in_grad_vars m) houtnd
      (num_grads m - 1 - i') (by omega)
    have h2 := list_index_getD_of_nodup (in_grad_vars m) houtnd j (by omega)
    rw [heq] at h1
    omega
  have hdecomp : div_eqns raw m pos M =
      (div_eqns raw m pos M).take (num_grads m - 1 - j) ++
        (div_eqn (apply_old_invars raw m pos) M (num_grads m - 1 - j) ::
          (div_eqns raw m pos M).drop ((num_grads m - 1 - j) + 1)) := by
    conv_lhs => rw [← List.take_append_drop (num_grads m - 1 - j)
      (div_eqns raw m pos M)]
    congr 1
    rw [List.drop_eq_getElem_cons (by omega)]
    congr 1
    rw [← List.getD_eq_getElem _ default (by omega), div_eqns,
      getD_map_range _ _ _ hi₀lt]
  rw [hdecomp, runEqns_append, runEqns_cons]
  rw [runEqns_not_written sem _ _ _ ?_]
  · rw [evalEqn_div_eqn, htmp, envSetList_single]
    congr 1
    apply runEqns_not_written
    intro e he hmem'
    obtain ⟨t, ht, hte⟩ := List.getElem_of_mem he
    rw [List.getElem_take] at hte
    rw [List.length_take] at ht
    have htlt : t < num_grads m - 1 - j := by omega
    have htlen : t < (div_eqns raw m pos M).length := by omega
    have hsh : (div_eqns raw m pos M)[t] =
        div_eqn (apply_old_invars raw m pos) M t := by
      rw [← List.getD_eq_getElem _ default htlen, div_eqns,
        getD_map_range _ _ _ (by omega)]
    rw [hsh] at hte
    rw [← hte] at hmem'
    have hmm := List.mem_singleton.mp hmem'
    rw [div_tmp_eq raw m pos harity t (by omega)] at hmm
    exact hne t (by omega) (by omega) hmm.symm
  · intro e he hmem'
    obtain ⟨t, ht, hte⟩ := List.getElem_of_mem he
    rw [List.getElem_drop] at hte
    rw [List.length_drop] at ht
    have htlen : num_grads m - 1 - j + 1 + t <
        (div_eqns raw m pos M).length := by omega
    have hsh : (div_eqns raw m pos M)[num_grads m - 1 - j + 1 + t] =
        div_eqn (apply_old_invars raw m pos) M
          (num_grads m - 1 - j + 1 + t) := by
      rw [← List.getD_eq_getElem _ default htlen, div_eqns,
        getD_map_range _ _ _ (by omega)]
    rw [hsh] at hte
    rw [← hte] at hmem'
    have hmm := List.mem_singleton.mp hmem'
    rw [div_tmp_eq raw m pos harity _ (by omega)] at hmm
    exact hne _ (by omega) (by omega) hmm.symm

/-- Neither the appended apply-grad operations nor the apply-grad end
marker rebind the gradient slots. -/
theorem apply_tail_preserved (sem : PrimSem) (raw : ClosedJaxpr) (m : JEqn)
    (pos : Nat) (hm : m ∈ raw.jaxpr.eqns)
    (harity : (in_grad_vars m).length = num_grads m)
    (hnoclobber : ∀ e ∈ apply_grad_eqns raw pos, ∀ v ∈ in_grad_vars m,
      v ∉ e.outvars)
    (env_C : Env) (j : Nat) (hj : j < num_grads m) :
    runEqns sem (apply_grad_eqns raw pos ++ [end_apply_eqn raw m pos]) env_C
        ((in_grad_vars m).getD j default) =
      env_C ((in_grad_vars m).getD j default) := by
  apply runEqns_not_written
  intro e he hmem'
  rcases List.mem_append.mp he with h | h
  · exact hnoclobber e h _ (getD_mem _ j (by omega)) hmem'
  · rcases List.mem_singleton.mp h with rfl
    have hout : (in_grad_vars m).getD j default ∈ new_outvars raw m pos :=
      hmem'
    have h1 := new_outvars_bounds raw m pos _ hout
    have h2 := apply_wrap_counter_ge raw m pos
    have hic := inter_clone_snd raw m pos
    have hjv : (in_grad_vars m).getD j default ∈ jaxprVars raw.jaxpr :=
      eqn_outvars_subset_jaxprVars raw.jaxpr m hm _
        (getD_mem (in_grad_vars m) j (by omega))
    have h3 : ((in_grad_vars m).getD j default).id < seed0 raw :=
      jaxprVars_id_lt_seed raw.jaxpr _ hjv
    omega

/-- C7: Modelled from the spec: evaluating the combined program as the
driver contract prescribes — accumulator slots initialized to zero, the
accumulate-grad region run once per each of the `M` microbatch
environments with the accumulator threaded through its trailing input
slots, then the apply-grad region run once on the final accumulator —
yields, in every gradient slot, the arithmetic mean (not the sum) of the
`M` per-microbatch gradients; and for the boundary case `M = 1` the
result equals the single-microbatch gradient exactly, the divide by `1`
being a value-level no-op. -/
theorem grad_mean_of_microbatches (sem : PrimSem) (raw : ClosedJaxpr)
    (m : JEqn) (pos M : Nat) (envs : List Env) (apply_env : Env)
    (hm : m ∈ raw.jaxpr.eqns) (hnodup : raw.jaxpr.invars.Nodup)
    (hb : 1 ≤ seed0 raw)
    (harity : (in_grad_vars m).length = num_grads m)
    (houtnd : (in_grad_vars m).Nodup)
    (hdisj : ∀ v ∈ in_grad_vars m, v ∉ raw.jaxpr.invars)
    (hnoclobber : ∀ e ∈ apply_grad_eqns raw pos, ∀ v ∈ in_grad_vars m,
      v ∉ e.outvars)
    (hM : envs.length = M) (j : Nat) (hj : j < num_grads m) :
    driver_run sem raw m pos M (envs.map (pull_env raw m pos)) apply_env
        ((in_grad_vars m).getD j default) =
      (envs.map
        (fun e => (micro_grad sem raw m pos e).getD j default)).sum /
        (M : ℚ) ∧
    (∀ e₀ : Env, M = 1 → envs = [e₀] →
      driver_run sem raw m pos M (envs.map (pull_env raw m pos)) apply_env
          ((in_grad_vars m).getD j default) =
        (micro_grad sem raw m pos e₀).getD j default) := by
  have hmain : driver_run sem raw m pos M (envs.map (pull_env raw m pos))
      apply_env ((in_grad_vars m).getD j default) =
      (envs.map
        (fun e => (micro_grad sem raw m pos e).getD j default)).sum /
        (M : ℚ) := by
    rw [driver_run, apply_region_eqns, runEqns_cons, List.append_assoc,
      runEqns_append]
    rw [apply_tail_preserved sem raw m pos hm harity hnoclobber _ j hj]
    rw [divs_divide sem raw m pos M harity houtnd _ j hj]
    rw [start_apply_in_grad sem raw m pos hnodup harity houtnd hdisj
      apply_env
      (driver_acc_loop sem raw m pos (envs.map (pull_env raw m pos))
        (List.replicate (num_grads m) 0))
      (driver_acc_loop_length sem raw m pos _ _ (by simp)) j hj]
    rw [driver_acc_loop_getD sem raw m pos hm hnodup hb envs _ (by simp)
      j hj]
    have hrep : (List.replicate (num_grads m) (0 : ℚ)).getD j default = 0 := by
      rw [List.getD_eq_getElem _ _ (by simpa using hj)]
      simp
    rw [hrep, zero_add, Int.cast_natCast]
  refine ⟨hmain, ?_⟩
  intro e₀ hM1 henvs
  subst hM1
  subst henvs
  rw [hmain]
  simp

theorem grad_mean_of_microbatches_witness :
    Ex.eMark ∈ Ex.P1.jaxpr.eqns ∧
    Ex.P1.jaxpr.invars.Nodup ∧
    1 ≤ seed0 Ex.P1 ∧
    (in_grad_vars Ex.eMark).length = num_grads Ex.eMark ∧
    (in_grad_vars Ex.eMark).Nodup ∧
    (∀ v ∈ in_grad_vars Ex.eMark, v ∉ Ex.P1.jaxpr.invars) ∧
    (∀ e ∈ apply_grad_eqns Ex.P1 2, ∀ v ∈ in_grad_vars Ex.eMark,
      v ∉ e.outvars) ∧
    0 < num_grads Ex.eMark ∧
    driver_run (fun _ _ _ => []) Ex.P1 Ex.eMark 2 2
        ([fun _ => (1 : ℚ), fun _ => (3 : ℚ)].map
          (pull_env Ex.P1 Ex.eMark 2)) (fun _ => 0)
        ((in_grad_vars Ex.eMark).getD 0 default) =
      ([fun _ => (1 : ℚ), fun _ => (3 : ℚ)].map
        (fun e : Env =>
          (micro_grad (fun _ _ _ => []) Ex.P1 Ex.eMark 2 e).getD 0
            default)).sum / ((2 : Nat) : ℚ) :=
  ⟨by decide, by decide, by decide, by decide, by decide, by decide,
    by decide, by decide,
    (grad_mean_of_microbatches (fun _ _ _ => []) Ex.P1 Ex.eMark 2 2
      [fun _ => (1 : ℚ), fun _ => (3 : ℚ)] (fun _ => 0) (by decide)
      (by decide) (by decide) (by decide) (by decide) (by decide)
      (by decide) rfl 0 (by decide)).1⟩

end Alpa
